import Mathlib

/-!
Shallow embedding of the filemanager repository (Go) and verification of
spec claims about it.  Pure fragments of the Go code are translated into
executable Lean definitions; stateful workers become explicit
state-passing functions over oracles describing the file system and the
external classifier process; the concurrent drivers become event traces.
-/

namespace Filemanager

/-! ## Bytes and hex encoding (model of Go `encoding/hex` as used by
`util/hash.go`).  A Go byte is a `Nat` below 256. -/

/-- Hex digit for a value below 16 (Go `hextable[b]`, the sixteen
lowercase hex digits). -/
def hexDigit (n : Nat) : Char :=
  if n < 10 then Char.ofNat ('0'.toNat + n) else Char.ofNat ('a'.toNat + n - 10)

/-- Model of Go `hex.EncodeToString` on a byte list: two lowercase hex
characters per byte, high nibble first. -/
def hexEncodeChars (bs : List Nat) : List Char :=
  bs.flatMap (fun b => [hexDigit (b / 16), hexDigit (b % 16)])

/-- `hex.EncodeToString` producing a string. -/
def hexEncode (bs : List Nat) : String := String.mk (hexEncodeChars bs)

/-- Model of Go `hex.fromHexChar`: value of one hex digit, accepting
`0-9`, `a-f` and `A-F`, `none` on anything else. -/
def fromHexChar (c : Char) : Option Nat :=
  if '0' ≤ c ∧ c ≤ '9' then some (c.toNat - '0'.toNat)
  else if 'a' ≤ c ∧ c ≤ 'f' then some (c.toNat - 'a'.toNat + 10)
  else if 'A' ≤ c ∧ c ≤ 'F' then some (c.toNat - 'A'.toNat + 10)
  else none

/-- Model of Go `hex.DecodeString` on a char list: decodes pairs of hex
digits; fails on an odd-length input or an invalid digit. -/
def hexDecodeChars : List Char → Option (List Nat)
  | [] => some []
  | [_] => none
  | a :: b :: rest =>
    match fromHexChar a, fromHexChar b, hexDecodeChars rest with
    | some x, some y, some l => some ((x * 16 + y) :: l)
    | _, _, _ => none

/-- `hex.DecodeString` on a string. -/
def hexDecode (s : String) : Option (List Nat) := hexDecodeChars s.toList

theorem fromHexChar_hexDigit (n : Nat) (h : n < 16) :
    fromHexChar (hexDigit n) = some n := by
  interval_cases n <;> decide

theorem hexDecodeChars_hexEncodeChars (bs : List Nat) (h : ∀ b ∈ bs, b < 256) :
    hexDecodeChars (hexEncodeChars bs) = some bs := by
  induction bs with
  | nil => rfl
  | cons b rest ih =>
    have hb : b < 256 := h b (List.mem_cons_self b rest)
    have hrest : ∀ x ∈ rest, x < 256 := fun x hx => h x (List.mem_cons_of_mem b hx)
    have hhi : b / 16 < 16 := by omega
    have hlo : b % 16 < 16 := by omega
    show hexDecodeChars
        (hexDigit (b / 16) :: hexDigit (b % 16) :: hexEncodeChars rest) = some (b :: rest)
    rw [hexDecodeChars, fromHexChar_hexDigit _ hhi, fromHexChar_hexDigit _ hlo, ih hrest]
    have : b / 16 * 16 + b % 16 = b := by omega
    simp [this]

/-! ## `util/hash.go`: the `Hash` value with lazily memoised hex and
composite forms.  The cached fields hold `""` until first computed; the
accessor functions below reproduce the memoisation test `if h.hex == ""`.
A Go nil-vs-empty distinction does not arise: the zero value is `""`. -/

structure Hash where
  alg : String
  data : List Nat
  hexF : String
  strF : String
  deriving Repr, DecidableEq

/-- Model of `(*Hash).Hex()`: return the cached field unless it is still
empty, in which case encode `data`. -/
def Hash.Hex (h : Hash) : String :=
  if h.hexF = "" then hexEncode h.data else h.hexF

/-- Model of `(*Hash).String()`: `algorithm:hex`, memoised. -/
def Hash.Str (h : Hash) : String :=
  if h.strF = "" then h.alg ++ ":" ++ h.Hex else h.strF

/-- Model of `(*Hash).Bytes()`. -/
def Hash.Bytes (h : Hash) : List Nat := h.data

/-- Model of `(*Hash).Algorithm()`. -/
def Hash.Algorithm (h : Hash) : String := h.alg

/-- Model of `util.NewSha1Hash`: caches start empty. -/
def NewSha1Hash (data : List Nat) : Hash :=
  { alg := "sha1", data := data, hexF := "", strF := "" }

/-- Model of `util.NewSha1HashFromHex`: decode the hex string, cache it
as the hex form, leave the composite form uncomputed. -/
def NewSha1HashFromHex (s : String) : Option Hash :=
  (hexDecode s).map (fun data => { alg := "sha1", data := data, hexF := s, strF := "" })

theorem hexEncode_ne_empty_iff (bs : List Nat) : hexEncode bs = "" ↔ bs = [] := by
  cases bs with
  | nil => simp [hexEncode, hexEncodeChars]
  | cons b rest =>
    simp only [hexEncode, hexEncodeChars, List.flatMap_cons]
    constructor
    · intro h
      have := congrArg String.toList h
      simp at this
    · intro h
      exact absurd h (by simp)

/-! ## Path construction (model of `filepath.Join` / `filepath.Base` as
used by the pipeline).  The Go functions additionally run
`filepath.Clean`; on the inputs the pipeline feeds them (an absolute
root without a trailing slash and non-empty slash-free components)
`Clean` is the identity, so it is omitted here. -/

/-- Model of Go `strings.Join(elems, "/")`. -/
def joinSlash : List String → String
  | [] => ""
  | [e] => e
  | e :: rest => e ++ "/" ++ joinSlash rest

/-- Model of Go `filepath.Join` (joins from the first non-empty element;
`Clean` omitted, see section comment). -/
def goJoin (elems : List String) : String :=
  joinSlash (elems.dropWhile (fun e => e = ""))

/-- Go string slicing `s[a:b]` (on our char-level view of strings). -/
def strSlice (s : String) (a b : Nat) : String :=
  String.mk ((s.toList.drop a).take (b - a))

/-- The sharded target path computed by `save` in
`filesystem/fileinfo.go`:
`filepath.Join(root, alg, hex[0:2], hex[2:4], hex[4:6], hex[6:8], hex)`. -/
def blobTargetPath (root : String) (h : Hash) : String :=
  goJoin [root, h.Algorithm, strSlice h.Hex 0 2, strSlice h.Hex 2 4,
    strSlice h.Hex 4 6, strSlice h.Hex 6 8, h.Hex]

theorem strSlice_length (s : String) (a b : Nat) :
    (strSlice s a b).length = min (b - a) (s.length - a) := by
  show ((s.toList.drop a).take (b - a)).length = _
  rw [List.length_take, List.length_drop]
  rw [show s.toList.length = s.length from rfl]

theorem strSlice_ne_empty (s : String) (a b : Nat) (ha : a < b) (hb : a < s.length) :
    strSlice s a b ≠ "" := by
  intro hcontra
  have hl := congrArg String.length hcontra
  rw [strSlice_length, show ("" : String).length = 0 from rfl] at hl
  omega

/-! ## C10: round-trip between the two `Hash` constructors. -/

/-- C10: for every byte sequence `d`, `NewSha1HashFromHex` applied to
`(NewSha1Hash d).Hex()` succeeds, and the resulting hash agrees with
`NewSha1Hash d` on `Bytes()`, `Hex()`, `Algorithm()` and `String()`. -/
theorem hash_hex_roundtrip (d : List Nat) (h : ∀ b ∈ d, b < 256) :
    ∃ h2, NewSha1HashFromHex ((NewSha1Hash d).Hex) = some h2 ∧
      h2.Bytes = (NewSha1Hash d).Bytes ∧
      h2.Hex = (NewSha1Hash d).Hex ∧
      h2.Algorithm = (NewSha1Hash d).Algorithm ∧
      h2.Str = (NewSha1Hash d).Str := by
  have hhex : (NewSha1Hash d).Hex = hexEncode d := by
    simp [NewSha1Hash, Hash.Hex]
  have hdec : hexDecode (hexEncode d) = some d := by
    rw [show hexDecode (hexEncode d) = hexDecodeChars (hexEncodeChars d) from rfl]
    exact hexDecodeChars_hexEncodeChars d h
  refine ⟨{ alg := "sha1", data := d, hexF := hexEncode d, strF := "" }, ?_, ?_, ?_, ?_, ?_⟩
  · rw [hhex]
    simp [NewSha1HashFromHex, hdec]
  · rfl
  · rw [hhex]
    simp only [Hash.Hex]
    split
    · rfl
    · rfl
  · rfl
  · have h2hex : Hash.Hex { alg := "sha1", data := d, hexF := hexEncode d, strF := "" } =
        hexEncode d := by
      simp only [Hash.Hex]
      split
      · rfl
      · rfl
    have hhex2 : Hash.Hex { alg := "sha1", data := d, hexF := "", strF := "" } =
        hexEncode d := hhex
    show Hash.Str _ = Hash.Str (NewSha1Hash d)
    unfold Hash.Str
    simp only [NewSha1Hash, if_true]
    rw [h2hex, hhex2]

/-- Witness for C10 at the concrete byte sequence `[0, 171, 255]`. -/
theorem hash_hex_roundtrip_witness :
    ∃ h2, NewSha1HashFromHex ((NewSha1Hash [0, 171, 255]).Hex) = some h2 ∧
      h2.Bytes = (NewSha1Hash [0, 171, 255]).Bytes ∧
      h2.Hex = (NewSha1Hash [0, 171, 255]).Hex ∧
      h2.Algorithm = (NewSha1Hash [0, 171, 255]).Algorithm ∧
      h2.Str = (NewSha1Hash [0, 171, 255]).Str :=
  hash_hex_roundtrip [0, 171, 255] (by decide)

/-! ## C4: exactness of the sharded target path. -/

/-- C4: for a blob with digest hex string `h`, the stored target path
computed by the store pipeline equals
`root/alg/h[0:2]/h[2:4]/h[4:6]/h[6:8]/h`: a 4-level fan-out keyed by the
first 8 hex characters with the full digest as leaf name.  Hypotheses:
the root and algorithm tag are non-empty (true for the absolute root and
the `"sha1"` tag) and the hex digest has at least 8 characters (a sha1
digest has 40). -/
theorem store_path_sharding (root : String) (h : Hash) (hroot : root ≠ "")
    (halg : h.Algorithm ≠ "") (hlen : 8 ≤ h.Hex.length) :
    blobTargetPath root h =
      root ++ "/" ++ h.Algorithm ++ "/" ++ strSlice h.Hex 0 2 ++ "/" ++
        strSlice h.Hex 2 4 ++ "/" ++ strSlice h.Hex 4 6 ++ "/" ++
        strSlice h.Hex 6 8 ++ "/" ++ h.Hex := by
  unfold blobTargetPath goJoin
  rw [List.dropWhile_cons, if_neg (by simp [hroot])]
  simp [joinSlash, String.append_assoc]

/-- Witness for C4 at a concrete root and a 40-character digest. -/
theorem store_path_sharding_witness :
    blobTargetPath "/data" (NewSha1Hash
        [1, 2, 3, 4, 5, 6, 7, 8, 9, 10, 11, 12, 13, 14, 15, 16, 17, 18, 19, 20]) =
      "/data/sha1/01/02/03/04/0102030405060708090a0b0c0d0e0f1011121314" := by
  have := store_path_sharding "/data"
    (NewSha1Hash [1, 2, 3, 4, 5, 6, 7, 8, 9, 10, 11, 12, 13, 14, 15, 16, 17, 18, 19, 20])
    (by decide) (by decide) (by decide)
  rw [this]
  rfl

/-! ## Further path helpers. -/

/-- Model of `util.PathToUrl` restricted to the absolute paths the
pipeline feeds it (`filepath.Abs` and `ToSlash` are then the
identity): wrap the path as a `file://` URI string. -/
def pathToUrl (p : String) : String := "file://" ++ p

/-- Model of Go `filepath.Base`: `"."` for the empty path, otherwise
strip trailing slashes and keep the last component (`"/"` if nothing
remains). -/
def baseName (p : String) : String :=
  if p = "" then "." else
  let cs := (p.toList.reverse.dropWhile (fun c => c = '/')).reverse
  if cs = [] then "/" else String.mk (cs.reverse.takeWhile (fun c => c ≠ '/')).reverse

/-- Model of Go `filepath.Dir` restricted to the clean, slash-containing
paths the store pipeline feeds it: everything before the last slash. -/
def dirName (p : String) : String :=
  if p.toList.contains '/' then
    String.mk ((p.toList.reverse.dropWhile (fun c => c ≠ '/')).drop 1).reverse
  else "."

/-! ## The `FileBlob` value and the store worker
(`filesystem/fileinfo.go`), plus the earlier snapshot store worker
(`fs` package snapshot).  Disk and channel effects are made explicit:
the worker's per-item body becomes a function from a file-system oracle
and the incoming blob to the list of counter/channel events it performs,
the files it writes and the directory trees it creates. -/

/-- Model of the `FileBlob` struct: `blob == nil` is `none`.  Blobs
reaching the store pipeline always carry a fingerprint (the loader only
emits after a successful `Load`), so `hash` is not optional. -/
structure FileBlobM where
  path : String
  url : String
  name : String
  blob : Option (List Nat)
  size : Int
  hash : Hash
  deriving Repr, DecidableEq

/-- Counter updates, channel sends and completion, as performed against
a `ProcessStatus`. -/
inductive Event where
  | addCount (n : Int)
  | addSize (n : Int)
  | addSkipCount (n : Int)
  | addSkipSize (n : Int)
  | addErrorCount (n : Int)
  | emitBlob (b : FileBlobM)
  | finish
  deriving Repr, DecidableEq

/-- Contents written to a file: raw bytes, or the bytes of a text
(JSON) document. -/
inductive FileData where
  | bytes (bs : List Nat)
  | text (s : String)
  deriving Repr, DecidableEq

/-- Result of `os.Stat` on a path, as the store worker consumes it. -/
inductive StatRes where
  | found (size : Int)
  | notFound
  | statError
  deriving Repr, DecidableEq

/-- Oracle describing the target file system's behaviour during one
store step. -/
structure SaveEnv where
  stat : String → StatRes
  mkdirOk : String → Bool
  writeOk : String → Bool

/-- Model of `blobExists`: `none` models the `(false, err)` return on a
stat failure that is not `IsNotExist`; otherwise existence means the
stat size equals the expected size. -/
def blobExists (env : SaveEnv) (path : String) (size : Int) : Option Bool :=
  match env.stat path with
  | .found sz => some (sz == size)
  | .notFound => some false
  | .statError => none

/-- Observable effects of one worker-loop iteration. -/
structure StepOut where
  events : List Event
  writes : List (String × FileData)
  mkdirs : List String
  deriving Repr, DecidableEq

/-- Blobs sent to the status output queue during a step. -/
def StepOut.emitted (o : StepOut) : List FileBlobM :=
  o.events.filterMap (fun e => match e with | .emitBlob b => some b | _ => none)

/-- One iteration of `save` in `filesystem/fileinfo.go` (the current
store worker): compute the sharded leaf path, dedup-check it, create its
parent directory tree, and write the raw content at the leaf path
itself.  `FileBlob.Size()` never returns an error, so that branch of the
Go code is dead and not modelled; `ReadCloser()` fails exactly when the
underlying byte slice is nil. -/
def saveStep (env : SaveEnv) (root : String) (b : FileBlobM) : StepOut :=
  let blobSize := b.size
  let blobHash := b.hash
  let blobPath := blobTargetPath root blobHash
  match blobExists env blobPath blobSize with
  | none => ⟨[.addErrorCount 1], [], []⟩
  | some ex =>
    if ex then ⟨[.addSkipCount 1, .addSkipSize blobSize], [], []⟩
    else if env.mkdirOk (dirName blobPath) = false then ⟨[.addErrorCount 1], [], []⟩
    else match b.blob with
      | none => ⟨[.addErrorCount 1], [], [dirName blobPath]⟩
      | some content =>
        if env.writeOk blobPath = false then
          ⟨[.addErrorCount 1], [], [dirName blobPath]⟩
        else
          ⟨[.addCount 1, .addSize blobSize,
              .emitBlob ⟨blobPath, pathToUrl blobPath, b.name, none, blobSize, blobHash⟩],
            [(blobPath, .bytes content)], [dirName blobPath]⟩

/-! JSON metadata record, model of `json.Marshal` on the snapshot's
`blobMeta` struct (field order `content-hash`, `size`,
`filename,omitempty`; Go's default HTML-escaping string encoder). -/

/-- Go `encoding/json` escaping of one character (HTML escaping on, as
`json.Marshal` uses). -/
def jsonEscapeChar (c : Char) : List Char :=
  if c = '"' then ['\\', '"']
  else if c = '\\' then ['\\', '\\']
  else if c = '\n' then ['\\', 'n']
  else if c = '\r' then ['\\', 'r']
  else if c = '\t' then ['\\', 't']
  else if c = '<' then ['\\', 'u', '0', '0', '3', 'c']
  else if c = '>' then ['\\', 'u', '0', '0', '3', 'e']
  else if c = '&' then ['\\', 'u', '0', '0', '2', '6']
  else if c.toNat < 32 then
    ['\\', 'u', '0', '0', hexDigit (c.toNat / 16), hexDigit (c.toNat % 16)]
  else if c.toNat = 8232 then ['\\', 'u', '2', '0', '2', '8']
  else if c.toNat = 8233 then ['\\', 'u', '2', '0', '2', '9']
  else [c]

/-- A JSON string literal as Go's encoder produces it. -/
def jsonStringLit (s : String) : String :=
  "\"" ++ String.mk (s.toList.flatMap jsonEscapeChar) ++ "\""

/-- Model of `newBlobMeta`: the serialized metadata record.  (For this
struct `json.Marshal` cannot fail, so the error branch of the Go code is
dead.) -/
def metaJson (h : String) (size : Int) (name : String) : String :=
  "\x7b\"content-hash\":" ++ jsonStringLit h ++ ",\"size\":" ++ toString size ++
    (if name = "" then "" else ",\"filename\":" ++ jsonStringLit name) ++ "\x7d"

/-- The sharded blob directory of the snapshot store worker:
`filepath.Join(root, filepath.Join(alg, hex[0:2], hex[2:4], hex[4:6],
hex[6:8], hex))`. -/
def snapBlobDir (root : String) (h : Hash) : String :=
  goJoin [root, goJoin [h.Algorithm, strSlice h.Hex 0 2, strSlice h.Hex 2 4,
    strSlice h.Hex 4 6, strSlice h.Hex 6 8, h.Hex]]

/-- `meta` file path of the snapshot store worker. -/
def snapMetaPath (root : String) (h : Hash) : String := goJoin [snapBlobDir root h, "meta"]

/-- `blob` file path of the snapshot store worker. -/
def snapBlobPath (root : String) (h : Hash) : String := goJoin [snapBlobDir root h, "blob"]

/-- One iteration of `save` in the earlier `fs`-package snapshot: the
sharded leaf is a directory holding a `meta` JSON record and a `blob`
content file.  (`Hash()` and `Size()` never return errors for this blob
implementation, so those branches are dead.) -/
def saveStepSnap (env : SaveEnv) (root : String) (b : FileBlobM) : StepOut :=
  let blobHash := b.hash
  let blobDir := snapBlobDir root blobHash
  let metaPath := snapMetaPath root blobHash
  let blobPath := snapBlobPath root blobHash
  let blobSize := b.size
  match blobExists env blobPath blobSize with
  | none => ⟨[.addErrorCount 1], [], []⟩
  | some ex =>
    if ex then ⟨[.addSkipCount 1, .addSkipSize blobSize], [], []⟩
    else if env.mkdirOk blobDir = false then ⟨[.addErrorCount 1], [], []⟩
    else
      let metaData := metaJson blobHash.Str blobSize b.name
      if env.writeOk metaPath = false then ⟨[.addErrorCount 1], [], [blobDir]⟩
      else match b.blob with
        | none => ⟨[.addErrorCount 1], [(metaPath, .text metaData)], [blobDir]⟩
        | some content =>
          if env.writeOk blobPath = false then
            ⟨[.addErrorCount 1], [(metaPath, .text metaData)], [blobDir]⟩
          else
            ⟨[.addCount 1, .addSize blobSize,
                .emitBlob ⟨blobPath, pathToUrl blobPath, b.name, none, blobSize, blobHash⟩],
              [(metaPath, .text metaData), (blobPath, .bytes content)], [blobDir]⟩

/-! ## C5: dedup skip path of the store worker. -/

/-- C5: if a file exists at the target blob-content path with size equal
to the incoming blob's byte length, the store worker only increments the
skip counters (by 1 and by the blob's size), writes nothing, creates no
directory and emits nothing; and the whole step is independent of the
blob's content, so content is never read for the comparison. -/
theorem store_dedup_skip (env : SaveEnv) (root : String) (b : FileBlobM)
    (hstat : env.stat (blobTargetPath root b.hash) = .found b.size) :
    saveStep env root b = ⟨[.addSkipCount 1, .addSkipSize b.size], [], []⟩ ∧
    (saveStep env root b).emitted = [] ∧
    ∀ c, saveStep env root { b with blob := c } = saveStep env root b := by
  have hsame : ∀ c, saveStep env root { b with blob := c } =
      ⟨[.addSkipCount 1, .addSkipSize b.size], [], []⟩ := by
    intro c
    simp [saveStep, blobExists, hstat]
  have hmain := hsame b.blob
  have hb : { b with blob := b.blob } = b := rfl
  rw [hb] at hmain
  refine ⟨hmain, ?_, fun c => by rw [hsame c, hmain]⟩
  rw [hmain]
  rfl

/-- A store-step oracle where every path already exists with size 2 and
all writes would succeed. -/
def dedupEnvW : SaveEnv := ⟨fun _ => .found 2, fun _ => true, fun _ => true⟩

/-- A concrete loaded blob of size 2. -/
def blobW : FileBlobM :=
  ⟨"/src/a.txt", pathToUrl "/src/a.txt", "a.txt", some [104, 105], 2,
    NewSha1Hash [1, 2, 3, 4, 5]⟩

/-- Witness for C5 at a concrete blob and oracle. -/
theorem store_dedup_skip_witness :
    saveStep dedupEnvW "/data" blobW = ⟨[.addSkipCount 1, .addSkipSize 2], [], []⟩ :=
  (store_dedup_skip dedupEnvW "/data" blobW rfl).1

/-! ## C9: the relocated blob emitted on a successful store. -/

/-- C9: on a successful store, the worker emits exactly one blob: a new
value with content cleared (`nil`), fingerprint and size equal to the
source blob's, and location the target path; it is distinct from the
source blob value (whose content is still loaded). -/
theorem store_emit_relocated (env : SaveEnv) (root : String) (b : FileBlobM) (c : List Nat)
    (hc : b.blob = some c)
    (hstat : env.stat (blobTargetPath root b.hash) = .notFound)
    (hmk : env.mkdirOk (dirName (blobTargetPath root b.hash)) = true)
    (hw : env.writeOk (blobTargetPath root b.hash) = true) :
    (saveStep env root b).emitted =
      [⟨blobTargetPath root b.hash, pathToUrl (blobTargetPath root b.hash), b.name, none,
        b.size, b.hash⟩] ∧
    ∀ e ∈ (saveStep env root b).emitted,
      e.blob = none ∧ e.hash = b.hash ∧ e.size = b.size ∧
        e.path = blobTargetPath root b.hash ∧ e ≠ b := by
  have hstep : saveStep env root b =
      ⟨[.addCount 1, .addSize b.size,
          .emitBlob ⟨blobTargetPath root b.hash, pathToUrl (blobTargetPath root b.hash),
            b.name, none, b.size, b.hash⟩],
        [(blobTargetPath root b.hash, .bytes c)], [dirName (blobTargetPath root b.hash)]⟩ := by
    simp [saveStep, blobExists, hstat, hmk, hc, hw]
  rw [hstep]
  refine ⟨rfl, ?_⟩
  intro e he
  simp only [StepOut.emitted, List.filterMap] at he
  simp at he
  subst he
  refine ⟨rfl, rfl, rfl, rfl, ?_⟩
  intro hcontra
  have := congrArg FileBlobM.blob hcontra
  simp [hc] at this

/-- A store-step oracle where nothing exists yet and everything
succeeds. -/
def saveEnvOkW : SaveEnv := ⟨fun _ => .notFound, fun _ => true, fun _ => true⟩

/-- Witness for C9 at a concrete blob and oracle. -/
theorem store_emit_relocated_witness :
    (saveStep saveEnvOkW "/data" blobW).emitted =
      [⟨blobTargetPath "/data" blobW.hash, pathToUrl (blobTargetPath "/data" blobW.hash),
        blobW.name, none, blobW.size, blobW.hash⟩] :=
  (store_emit_relocated saveEnvOkW "/data" blobW [104, 105] rfl rfl rfl rfl).1

/-! ## C1: what the store workers put on disk.

The claim (two files, `meta` and `blob`, under the sharded target
directory) holds of the snapshot store worker but not of the current
worker in `filesystem/fileinfo.go`, which writes the raw content as a
single file at the sharded leaf path and writes no `meta` file at
all. -/

/-- Counterexample to C1 as stated: a non-duplicate blob processed
successfully by the current store worker (`save` in
`filesystem/fileinfo.go`) results in exactly one written file, and no
written path has base name `meta`. -/
theorem store_single_file_counterexample :
    ((saveStep saveEnvOkW "/data" blobW).events.contains (Event.addCount 1) = true) ∧
    (saveStep saveEnvOkW "/data" blobW).writes.length = 1 ∧
    ∀ w ∈ (saveStep saveEnvOkW "/data" blobW).writes, baseName w.1 ≠ "meta" := by
  decide

/-- C1 (amended): for a non-duplicate blob, the snapshot (`fs` package)
store worker creates the sharded target directory and writes the `meta`
JSON record (content-hash composite string, byte size, optional
filename) and the raw-content `blob` file beneath it, counting the item
as an error (with no emission) if either write fails; the current
`filesystem` store worker instead creates the parent directory tree and
writes the raw content as a single file at the sharded leaf path (no
`meta` file), likewise counting the item as an error if the write
fails. -/
theorem store_write_layout (root : String) (b : FileBlobM) (c : List Nat)
    (envA envB envC envD envE : SaveEnv) (hc : b.blob = some c)
    (hA1 : envA.stat (snapBlobPath root b.hash) = .notFound)
    (hA2 : envA.mkdirOk (snapBlobDir root b.hash) = true)
    (hA3 : envA.writeOk (snapMetaPath root b.hash) = true)
    (hA4 : envA.writeOk (snapBlobPath root b.hash) = true)
    (hB1 : envB.stat (snapBlobPath root b.hash) = .notFound)
    (hB2 : envB.mkdirOk (snapBlobDir root b.hash) = true)
    (hB3 : envB.writeOk (snapMetaPath root b.hash) = false)
    (hC1 : envC.stat (snapBlobPath root b.hash) = .notFound)
    (hC2 : envC.mkdirOk (snapBlobDir root b.hash) = true)
    (hC3 : envC.writeOk (snapMetaPath root b.hash) = true)
    (hC4 : envC.writeOk (snapBlobPath root b.hash) = false)
    (hD1 : envD.stat (blobTargetPath root b.hash) = .notFound)
    (hD2 : envD.mkdirOk (dirName (blobTargetPath root b.hash)) = true)
    (hD3 : envD.writeOk (blobTargetPath root b.hash) = true)
    (hE1 : envE.stat (blobTargetPath root b.hash) = .notFound)
    (hE2 : envE.mkdirOk (dirName (blobTargetPath root b.hash)) = true)
    (hE3 : envE.writeOk (blobTargetPath root b.hash) = false) :
    saveStepSnap envA root b =
      ⟨[.addCount 1, .addSize b.size,
          .emitBlob ⟨snapBlobPath root b.hash, pathToUrl (snapBlobPath root b.hash), b.name,
            none, b.size, b.hash⟩],
        [(snapMetaPath root b.hash, .text (metaJson b.hash.Str b.size b.name)),
          (snapBlobPath root b.hash, .bytes c)],
        [snapBlobDir root b.hash]⟩ ∧
    saveStepSnap envB root b = ⟨[.addErrorCount 1], [], [snapBlobDir root b.hash]⟩ ∧
    saveStepSnap envC root b =
      ⟨[.addErrorCount 1],
        [(snapMetaPath root b.hash, .text (metaJson b.hash.Str b.size b.name))],
        [snapBlobDir root b.hash]⟩ ∧
    saveStep envD root b =
      ⟨[.addCount 1, .addSize b.size,
          .emitBlob ⟨blobTargetPath root b.hash, pathToUrl (blobTargetPath root b.hash),
            b.name, none, b.size, b.hash⟩],
        [(blobTargetPath root b.hash, .bytes c)], [dirName (blobTargetPath root b.hash)]⟩ ∧
    saveStep envE root b = ⟨[.addErrorCount 1], [], [dirName (blobTargetPath root b.hash)]⟩ := by
  refine ⟨?_, ?_, ?_, ?_, ?_⟩
  · simp [saveStepSnap, blobExists, hA1, hA2, hA3, hA4, hc]
  · simp [saveStepSnap, blobExists, hB1, hB2, hB3]
  · simp [saveStepSnap, blobExists, hC1, hC2, hC3, hC4, hc]
  · simp [saveStep, blobExists, hD1, hD2, hD3, hc]
  · simp [saveStep, blobExists, hE1, hE2, hE3, hc]

/-- Oracle whose writes all fail (directories still creatable). -/
def writeFailEnvW : SaveEnv := ⟨fun _ => .notFound, fun _ => true, fun _ => false⟩

/-- Oracle where only the `meta` file is writable. -/
def metaOnlyEnvW : SaveEnv := ⟨fun _ => .notFound, fun _ => true, fun p => baseName p == "meta"⟩

/-- Witness for C1 (amended) at a concrete blob and oracles. -/
theorem store_write_layout_witness :
    saveStepSnap saveEnvOkW "/data" blobW =
      ⟨[.addCount 1, .addSize blobW.size,
          .emitBlob ⟨snapBlobPath "/data" blobW.hash, pathToUrl (snapBlobPath "/data" blobW.hash),
            blobW.name, none, blobW.size, blobW.hash⟩],
        [(snapMetaPath "/data" blobW.hash, .text (metaJson blobW.hash.Str blobW.size blobW.name)),
          (snapBlobPath "/data" blobW.hash, .bytes [104, 105])],
        [snapBlobDir "/data" blobW.hash]⟩ :=
  (store_write_layout "/data" blobW [104, 105] saveEnvOkW writeFailEnvW metaOnlyEnvW
    saveEnvOkW writeFailEnvW rfl rfl rfl rfl rfl rfl rfl rfl rfl rfl (by decide) (by decide)
    rfl rfl rfl rfl rfl rfl).1

/-! ## C8: the loader worker (`loadFile` in `filesystem/fileinfo.go`).
The sha1 digest computation is kept abstract (a parameter), as its
internals do not bear on the loader's bookkeeping. -/

/-- Oracle describing `os.Open` + `ioutil.ReadAll` on a path: `none`
models any open/read failure. -/
structure LoadEnv where
  readFile : String → Option (List Nat)

/-- One iteration of the `loadFile` worker loop: build the blob for the
path (`NewFileBlob`), `Load` it, and on success count it and emit it;
on failure count one error and drop the path. -/
def loadFileStep (sha1 : List Nat → List Nat) (env : LoadEnv) (fpath : String) : StepOut :=
  match env.readFile fpath with
  | none => ⟨[.addErrorCount 1], [], []⟩
  | some content =>
    let size : Int := content.length
    ⟨[.addCount 1, .addSize size,
        .emitBlob ⟨fpath, pathToUrl fpath, baseName fpath, some content, size,
          NewSha1Hash (sha1 content)⟩], [], []⟩

/-- C8: for a path whose read succeeds, the loader increments `count`
by one and `byteSize` by the content length and emits exactly one
loaded blob (content, size and fingerprint populated together); for a
path whose read fails, it increments `errorCount` by one and performs
no other effect (no count/size change, nothing emitted, no retry). -/
theorem loader_step (sha1 : List Nat → List Nat) (env1 env2 : LoadEnv) (p q : String)
    (content : List Nat) (hs : env1.readFile p = some content)
    (hf : env2.readFile q = none) :
    loadFileStep sha1 env1 p =
      ⟨[.addCount 1, .addSize content.length,
          .emitBlob ⟨p, pathToUrl p, baseName p, some content, content.length,
            NewSha1Hash (sha1 content)⟩], [], []⟩ ∧
    (loadFileStep sha1 env1 p).emitted.length = 1 ∧
    loadFileStep sha1 env2 q = ⟨[.addErrorCount 1], [], []⟩ ∧
    (loadFileStep sha1 env2 q).emitted = [] := by
  have h1 : loadFileStep sha1 env1 p =
      ⟨[.addCount 1, .addSize content.length,
          .emitBlob ⟨p, pathToUrl p, baseName p, some content, content.length,
            NewSha1Hash (sha1 content)⟩], [], []⟩ := by
    simp [loadFileStep, hs]
  have h2 : loadFileStep sha1 env2 q = ⟨[.addErrorCount 1], [], []⟩ := by
    simp [loadFileStep, hf]
  refine ⟨h1, ?_, h2, ?_⟩
  · rw [h1]
    rfl
  · rw [h2]
    rfl

/-- Witness for C8 at a concrete reading oracle (one readable path, one
unreadable path). -/
theorem loader_step_witness :
    loadFileStep (fun _ => [1, 2]) ⟨fun p => if p = "/r/a.txt" then some [104, 105] else none⟩
        "/r/a.txt" =
      ⟨[.addCount 1, .addSize 2,
          .emitBlob ⟨"/r/a.txt", pathToUrl "/r/a.txt", baseName "/r/a.txt", some [104, 105],
            2, NewSha1Hash [1, 2]⟩], [], []⟩ ∧
    loadFileStep (fun _ => [1, 2]) ⟨fun p => if p = "/r/a.txt" then some [104, 105] else none⟩
        "/r/b.txt" = ⟨[.addErrorCount 1], [], []⟩ := by
  have h := loader_step (fun _ => [1, 2])
    ⟨fun p => if p = "/r/a.txt" then some [104, 105] else none⟩
    ⟨fun p => if p = "/r/a.txt" then some [104, 105] else none⟩
    "/r/a.txt" "/r/b.txt" [104, 105] (by decide) (by decide)
  exact ⟨h.1, h.2.2.1⟩

/-! ## C7: the walker (`walkDir` in `filesystem/fileinfo.go`) and the
default skip predicate (`skipDotFile`).  The directory tree is
abstracted as a forest of entries; a directory node carries a flag for
whether opening/listing it succeeds. -/

mutual
/-- A directory entry as the walker sees it: a file with its stat size,
or a directory (with an openability flag) and its entries. -/
inductive FsNode where
  | file (name : String) (size : Int)
  | dir (name : String) (ok : Bool) (children : FsForest)

/-- A list of directory entries. -/
inductive FsForest where
  | nil
  | cons (n : FsNode) (rest : FsForest)
end

/-- The entry's name (`fi.Name()`). -/
def FsNode.fname : FsNode → String
  | .file n _ => n
  | .dir n _ _ => n

/-- Effects of a walk: counter events and emitted file paths (pushes to
the path channel). -/
structure WalkOut where
  events : List Event
  emitted : List String
  deriving Repr, DecidableEq

instance : Append WalkOut := ⟨fun a b => ⟨a.events ++ b.events, a.emitted ++ b.emitted⟩⟩

/-- Model of the default skip predicate `skipDotFile`: skip when the
base name is empty or starts with the `.` marker. -/
def skipDotFile (path : String) : Bool :=
  let name := baseName path
  if name.length ≤ 0 then true
  else if strSlice name 0 1 = "." then true
  else false

mutual
/-- The body of `walkDir`'s entry loop, for one entry of `dirPath`: a
skipped entry only bumps the skip counters (plus the stat size for a
file) and is neither emitted nor descended into; otherwise files are
emitted and directories recursed into. -/
def walkEntry (skip : String → Bool) (dirPath : String) (n : FsNode) : WalkOut :=
  let fpath := goJoin [dirPath, n.fname]
  if skip fpath then
    match n with
    | .file _ size => ⟨[.addSkipCount 1, .addSkipSize size], []⟩
    | .dir _ _ _ => ⟨[.addSkipCount 1], []⟩
  else
    match n with
    | .file _ _ => ⟨[], [fpath]⟩
    | .dir _ ok children => walkDirM skip fpath ok children

/-- Model of `walkDir` on a directory: an open/list failure counts one
error and aborts only that subtree; otherwise every entry is
processed. -/
def walkDirM (skip : String → Bool) (dirPath : String) (ok : Bool) (entries : FsForest) :
    WalkOut :=
  if ok then walkForest skip dirPath entries else ⟨[.addErrorCount 1], []⟩

/-- The entry loop of `walkDir`. -/
def walkForest (skip : String → Bool) (dirPath : String) (f : FsForest) : WalkOut :=
  match f with
  | .nil => ⟨[], []⟩
  | .cons n rest => walkEntry skip dirPath n ++ walkForest skip dirPath rest
end

theorem goJoin_pair (d n : String) (hd : d ≠ "") : goJoin [d, n] = d ++ "/" ++ n := by
  unfold goJoin
  rw [List.dropWhile_cons, if_neg (by simp [hd])]
  rfl

theorem strToList_append (a b : String) : (a ++ b).toList = a.toList ++ b.toList :=
  String.data_append a b

theorem takeWhile_stop {α : Type} (p : α → Bool) (l r : List α) (x : α)
    (hl : ∀ c ∈ l, p c = true) (hx : p x = false) :
    (l ++ x :: r).takeWhile p = l := by
  induction l with
  | nil => simp [List.takeWhile_cons, hx]
  | cons a as ih =>
    have ha : p a = true := hl a (List.mem_cons_self a as)
    simp only [List.cons_append, List.takeWhile_cons, ha]
    rw [ih (fun c hc => hl c (List.mem_cons_of_mem a hc))]
    simp

theorem baseName_join (d name : String) (hd : d ≠ "") (hn : name ≠ "")
    (hs : ∀ c ∈ name.toList, c ≠ '/') : baseName (goJoin [d, name]) = name := by
  rw [goJoin_pair d name hd]
  have htl : (d ++ "/" ++ name).toList = d.toList ++ '/' :: name.toList := by
    rw [strToList_append, strToList_append, show "/".toList = ['/'] from rfl]
    simp
  have hne : (d ++ "/" ++ name) ≠ "" := by
    intro hcontra
    have := congrArg String.toList hcontra
    rw [htl] at this
    simp at this
  have hrev : (d ++ "/" ++ name).toList.reverse =
      name.toList.reverse ++ '/' :: d.toList.reverse := by
    rw [htl]
    simp
  have hnl : name.toList ≠ [] := by
    intro hcontra
    exact hn (congrArg String.mk hcontra)
  obtain ⟨c, cs, hcs⟩ := List.exists_cons_of_ne_nil (by
    simpa using (List.reverse_eq_nil_iff.not.mpr hnl) : name.toList.reverse ≠ [])
  have hcmem : c ∈ name.toList := by
    have : c ∈ name.toList.reverse := by
      rw [hcs]
      exact List.mem_cons_self c cs
    simpa using this
  have hcne : c ≠ '/' := hs c hcmem
  have hdrop : (d ++ "/" ++ name).toList.reverse.dropWhile (fun ch => ch = '/') =
      (d ++ "/" ++ name).toList.reverse := by
    rw [hrev, hcs]
    simp only [List.cons_append, List.dropWhile_cons]
    simp [hcne]
  unfold baseName
  rw [if_neg hne]
  simp only [hdrop, List.reverse_reverse]
  rw [if_neg (by
    intro hcontra
    rw [htl] at hcontra
    simp at hcontra)]
  rw [hrev]
  rw [takeWhile_stop (fun c => decide (c ≠ '/')) name.toList.reverse d.toList.reverse '/'
    (by
      intro ch hch
      have hm : ch ∈ name.toList := by simpa using hch
      simpa using hs ch hm)
    (by simp)]
  rw [List.reverse_reverse]
  rfl

/-- C7: a directory entry for which the skip predicate holds bumps
`skipCount` by one, additionally bumps `skipByteSize` by the stat size
exactly when the entry is a file, and is neither emitted nor descended
into (its whole subtree produces nothing); the walker processes a
directory's entries one after another; and on entry names produced by
the walker (non-empty, slash-free, joined to a non-empty parent path)
the default predicate `skipDotFile` skips exactly the names starting
with the `.` marker. -/
theorem walker_skip_entry (skip : String → Bool) (d name : String) (size : Int) (ok : Bool)
    (children : FsForest) (n : FsNode) (rest : FsForest)
    (hd : d ≠ "") (hn : name ≠ "") (hs : ∀ c ∈ name.toList, c ≠ '/')
    (hskip : skip (goJoin [d, name]) = true) :
    walkEntry skip d (.file name size) = ⟨[.addSkipCount 1, .addSkipSize size], []⟩ ∧
    walkEntry skip d (.dir name ok children) = ⟨[.addSkipCount 1], []⟩ ∧
    walkForest skip d (.cons n rest) = walkEntry skip d n ++ walkForest skip d rest ∧
    (skipDotFile (goJoin [d, name]) = true ↔ name.toList.head? = some '.') := by
  refine ⟨?_, ?_, ?_, ?_⟩
  · rw [walkEntry]
    simp only [FsNode.fname]
    rw [if_pos hskip]
  · rw [walkEntry]
    simp only [FsNode.fname]
    rw [if_pos hskip]
  · rw [walkForest]
  · have hb : baseName (goJoin [d, name]) = name := baseName_join d name hd hn hs
    unfold skipDotFile
    rw [hb]
    have hnl : name.toList ≠ [] := by
      intro hcontra
      exact hn (congrArg String.mk hcontra)
    have hlen : ¬ name.length ≤ 0 := by
      have : name.toList.length ≠ 0 := fun hc => hnl (List.length_eq_zero.mp hc)
      have hlq : name.length = name.toList.length := rfl
      omega
    rw [if_neg hlen]
    obtain ⟨c, cs, hcs⟩ := List.exists_cons_of_ne_nil hnl
    constructor
    · intro htrue
      by_cases hdot : strSlice name 0 1 = "."
      · have : name.toList.take 1 = ['.'] := by
          have := congrArg String.toList hdot
          simpa [strSlice] using this
        rw [hcs] at this ⊢
        simp at this
        simp [this]
      · rw [if_neg hdot] at htrue
        exact absurd htrue (by simp)
    · intro hhead
      rw [hcs] at hhead
      simp at hhead
      have hdot : strSlice name 0 1 = "." := by
        simp only [strSlice]
        rw [hcs, hhead]
        rfl
      rw [if_pos hdot]

/-- Witness for C7: a hidden file, a hidden directory with a child, and
the default predicate, at concrete paths. -/
theorem walker_skip_entry_witness :
    walkEntry skipDotFile "/r" (.file ".secret" 7) =
      ⟨[.addSkipCount 1, .addSkipSize 7], []⟩ ∧
    walkEntry skipDotFile "/r" (.dir ".git" true (.cons (.file "config" 3) .nil)) =
      ⟨[.addSkipCount 1], []⟩ ∧
    (skipDotFile (goJoin ["/r", ".secret"]) = true ↔ (".secret").toList.head? = some '.') := by
  have h := walker_skip_entry skipDotFile "/r" ".secret" 7 true
    (.cons (.file "config" 3) .nil) (.file ".secret" 7) .nil
    (by decide) (by decide) (by decide) (by decide)
  have h2 := walker_skip_entry skipDotFile "/r" ".git" 7 true
    (.cons (.file "config" 3) .nil) (.file ".git" 7) .nil
    (by decide) (by decide) (by decide) (by decide)
  exact ⟨h.1, h2.2.1, h.2.2.2⟩

/-! ## The classifier batcher (`detect`, `detectWithFileCmd`,
`parseMimeString`, `parseMimeLine`, `parseDescLine` in
`filesystem/fileinfo.go`; `BlobMeta` in `meta/meta.go`).

The external `file` command is abstracted as an oracle giving the text
output of each of the two invocations (`none` models a command error),
and the temp-file steps as success flags.  The Go `path → *BlobMeta`
map becomes an association list with overwrite-on-insert; in-place
mutation of a `*BlobMeta` becomes re-insertion at its key.  The
`MapName2Mime` extension table is a parameter. -/

/-- Result of parsing `type/subtype; charset=encoding`. -/
structure MimeType where
  typ : String
  subtyp : String
  encoding : String
  deriving Repr, DecidableEq

/-- Go `unicode.IsSpace` restricted to the Latin-1 range it lists
explicitly (tab, newline, vertical tab, form feed, carriage return,
space, NEL, NBSP). -/
def isSpaceGo (c : Char) : Bool :=
  c = ' ' || c.toNat = 9 || c.toNat = 10 || c.toNat = 11 || c.toNat = 12 || c.toNat = 13 ||
    c.toNat = 133 || c.toNat = 160

/-- Model of `strings.TrimSpace`. -/
def goTrim (s : String) : String :=
  String.mk (((s.toList.dropWhile isSpaceGo).reverse.dropWhile isSpaceGo).reverse)

/-- Trailing-whitespace trim (used to describe intermediate states of
line parsing). -/
def goTrimRight (s : String) : String :=
  String.mk ((s.toList.reverse.dropWhile isSpaceGo).reverse)

/-- Index of the first occurrence of a character. -/
def charIdx (c : Char) : List Char → Option Nat
  | [] => none
  | a :: as => if a = c then some 0 else (charIdx c as).map (fun i => i + 1)

/-- Model of `strings.Index(s, c)` for a one-character separator. -/
def strIndexChar (s : String) (c : Char) : Option Nat :=
  charIdx c s.toList

/-- Model of `parseMimeString`: split once on `;`, the head once on
`/`, the tail once on `=`; fail if any separator is missing; trim the
three fields. -/
def parseMimeString (s : String) : Option MimeType :=
  match strIndexChar s ';' with
  | none => none
  | some i =>
    let p0 := String.mk (s.toList.take i)
    let p1 := String.mk (s.toList.drop (i + 1))
    match strIndexChar p0 '/' with
    | none => none
    | some j =>
      match strIndexChar p1 '=' with
      | none => none
      | some k =>
        some ⟨goTrim (String.mk (p0.toList.take j)), goTrim (String.mk (p0.toList.drop (j + 1))),
          goTrim (String.mk (p1.toList.drop (k + 1)))⟩

/-- A typed attribute value (`meta.Value`). -/
inductive MetaValue where
  | str (s : String)
  | int (n : Int)
  deriving Repr, DecidableEq

/-- Model of `meta.BlobMeta`: the fingerprint-derived id plus the
attribute map (as an insertion-ordered association list). -/
structure BlobMetaM where
  id : String
  attrs : List (String × MetaValue)
  deriving Repr, DecidableEq

/-- Go map assignment on the attribute map: overwrite or append. -/
def attrsSet (l : List (String × MetaValue)) (k : String) (v : MetaValue) :
    List (String × MetaValue) :=
  if l.any (fun kv => kv.1 = k) then l.map (fun kv => if kv.1 = k then (k, v) else kv)
  else l ++ [(k, v)]

/-- Model of `(*BlobMeta).Add`. -/
def BlobMetaM.Add (m : BlobMetaM) (k : String) (v : MetaValue) : BlobMetaM :=
  ⟨m.id, attrsSet m.attrs k v⟩

/-- Lookup in the `path → BlobMeta` map. -/
def mapGet (m : List (String × BlobMetaM)) (k : String) : Option BlobMetaM :=
  (m.find? (fun kv => kv.1 = k)).map Prod.snd

/-- Go map assignment on the `path → BlobMeta` map. -/
def mapSet (m : List (String × BlobMetaM)) (k : String) (v : BlobMetaM) :
    List (String × BlobMetaM) :=
  if m.any (fun kv => kv.1 = k) then m.map (fun kv => if kv.1 = k then (k, v) else kv)
  else m ++ [(k, v)]

/-- Model of Go `filepath.Ext`: the suffix starting at the final dot of
the final path element, `""` when there is none. -/
def goExt (s : String) : String :=
  let seg := s.toList.reverse.takeWhile (fun c => c ≠ '/')
  let pre := seg.takeWhile (fun c => c ≠ '.')
  if pre.length = seg.length then "" else String.mk ('.' :: pre.reverse)

/-- Model of `strings.ToLower` (ASCII case folding suffices for the
extensions involved). -/
def toLowerGo (s : String) : String := String.mk (s.toList.map Char.toLower)

/-- Model of `util.FileExt`: lower-cased extension with the leading dot
stripped. -/
def FileExt (s : String) : String :=
  let ext := toLowerGo (goExt s)
  if 0 < ext.length && (strSlice ext 0 1 == ".") then strSlice ext 1 ext.length else ext

/-- The classifier batcher's per-file input view: its path, display
name and content-hash composite string. -/
structure CFile where
  path : String
  name : String
  hashStr : String
  deriving Repr, DecidableEq

/-- The `BlobMeta` built for one file before classification: id is the
hash string; filename/extension attributes are attached up front. -/
def initMeta (extMime : String → MimeType) (f : CFile) : BlobMetaM :=
  ((((BlobMetaM.mk f.hashStr []).Add "filename" (.str f.name)).Add
      "fileext" (.str (FileExt f.name))).Add
    "fileext-mime-type" (.str (extMime f.name).typ)).Add
      "fileext-mime-subtype" (.str (extMime f.name).subtyp)

/-- The `path2meta` map built at the start of `detect`. -/
def buildPath2Meta (extMime : String → MimeType) (files : List CFile) :
    List (String × BlobMetaM) :=
  files.foldl (fun m f => mapSet m f.path (initMeta extMime f)) []

/-- The construction sites of classification errors (the Go code sends
`error` values; the construction site identifies the kind). -/
inductive DErrKind where
  | tmpFileErr
  | listWriteErr
  | cmdErr
  | matchErr
  | parseErr
  deriving Repr, DecidableEq

/-- One `meta.MetaExtractResult` on the result stream. -/
inductive DetectResult where
  | derr (k : DErrKind)
  | dok (bm : BlobMetaM)
  deriving Repr, DecidableEq

/-- Model of `strings.Split(out, "\n")`. -/
def splitCharAux : List Char → List Char → List String
  | [], acc => [String.mk acc.reverse]
  | c :: rest, acc =>
    if c = '\n' then String.mk acc.reverse :: splitCharAux rest []
    else splitCharAux rest (c :: acc)

/-- The lines of a command output. -/
def splitLines (s : String) : List String := splitCharAux s.toList []

/-- One iteration of the MIME loop in `detectWithFileCmd`: trim the
line, skip it when empty, report a match error when no map entry owns
its path prefix, a parse error when the value grammar fails, and
otherwise attach the three MIME attributes to the owning `BlobMeta`. -/
def mimeLineStep (st : List (String × BlobMetaM) × List DetectResult) (line : String) :
    List (String × BlobMetaM) × List DetectResult :=
  let l := goTrim line
  if l = "" then st
  else
    match strIndexChar l ':' with
    | none => (st.1, st.2 ++ [.derr .matchErr])
    | some i =>
      let key := String.mk (l.toList.take i)
      match mapGet st.1 key with
      | none => (st.1, st.2 ++ [.derr .matchErr])
      | some bm =>
        match parseMimeString (goTrim (String.mk (l.toList.drop (i + 1)))) with
        | none => (st.1, st.2 ++ [.derr .parseErr])
        | some mt =>
          (mapSet st.1 key (((bm.Add "filetype-mime-type" (.str mt.typ)).Add
              "filetype-mime-subtype" (.str mt.subtyp)).Add
            "filetype-mime-encoding" (.str mt.encoding)), st.2)

/-- The MIME invocation: a command error produces a single error result
for the whole batch; otherwise each output line is processed. -/
def mimePass (m : List (String × BlobMetaM)) (cmdOut : Option String) :
    List (String × BlobMetaM) × List DetectResult :=
  match cmdOut with
  | none => (m, [.derr .cmdErr])
  | some out => (splitLines out).foldl mimeLineStep (m, [])

/-- One iteration of the description loop in `detectWithFileCmd`: like
the MIME loop but the value is free text; an empty description attaches
nothing (and is not an error). -/
def descLineStep (st : List (String × BlobMetaM) × List DetectResult) (line : String) :
    List (String × BlobMetaM) × List DetectResult :=
  let l := goTrim line
  if l = "" then st
  else
    match strIndexChar l ':' with
    | none => (st.1, st.2 ++ [.derr .matchErr])
    | some i =>
      let key := String.mk (l.toList.take i)
      match mapGet st.1 key with
      | none => (st.1, st.2 ++ [.derr .matchErr])
      | some bm =>
        let desc := goTrim (String.mk (l.toList.drop (i + 1)))
        if desc = "" then st
        else (mapSet st.1 key (bm.Add "filetype-description" (.str desc)), st.2)

/-- The description invocation. -/
def descPass (m : List (String × BlobMetaM)) (cmdOut : Option String) :
    List (String × BlobMetaM) × List DetectResult :=
  match cmdOut with
  | none => (m, [.derr .cmdErr])
  | some out => (splitLines out).foldl descLineStep (m, [])

/-- The final loop of `detect`: every `BlobMeta` of the batch is sent
to the result stream as a success, whatever happened before.  Go
iterates the map in unspecified (runtime-randomised) order; the model
determinises it to insertion order, so only order-insensitive
consequences (counts, the multiset of emitted records) are faithful to
the program and only such consequences are drawn below. -/
def finalEmit (m : List (String × BlobMetaM)) : List DetectResult :=
  m.map (fun kv => .dok kv.2)

/-- Oracle for one `detect` task: temp-file creation and listing-write
success, and the two command outputs (`none` = invocation error). -/
structure ClsEnv where
  tmpOk : Bool
  listWriteOk : Bool
  mimeOut : Option String
  descOut : Option String

/-- Model of `detect` for one batch: build the map, attempt the listing
file, run the two classifier passes, then emit every `BlobMeta` as a
success result. -/
def detectModel (extMime : String → MimeType) (env : ClsEnv) (files : List CFile) :
    List DetectResult :=
  let m := buildPath2Meta extMime files
  if env.tmpOk = false then [.derr .tmpFileErr] ++ finalEmit m
  else if env.listWriteOk = false then [.derr .listWriteErr] ++ finalEmit m
  else
    let r1 := mimePass m env.mimeOut
    let r2 := descPass r1.1 env.descOut
    r1.2 ++ r2.2 ++ finalEmit r2.1

/-- Is a result a success? -/
def isOk : DetectResult → Bool
  | .dok _ => true
  | .derr _ => false

/-- Is a result a per-line parse error? -/
def isParseErr : DetectResult → Bool
  | .derr .parseErr => true
  | _ => false

/-- Is a result any error? -/
def isErr : DetectResult → Bool
  | .derr _ => true
  | .dok _ => false

/-- Number of success results. -/
def countOk (rs : List DetectResult) : Nat := rs.countP isOk

/-- Number of parse-error results. -/
def countParseErr (rs : List DetectResult) : Nat := rs.countP isParseErr

/-- Number of error results of any kind. -/
def countErr (rs : List DetectResult) : Nat := rs.countP isErr

/-- The ids carried by the success results, in emission order. -/
def okIds (rs : List DetectResult) : List String :=
  rs.filterMap (fun r => match r with | .dok bm => some bm.id | _ => none)

/-! ### Supporting lemmas for the classifier claims. -/

/-- Keys and ids of the `path → BlobMeta` map. -/
def idProj (m : List (String × BlobMetaM)) : List (String × String) :=
  m.map (fun kv => (kv.1, kv.2.id))

theorem countOk_map_dok (l : List BlobMetaM) :
    countOk (l.map DetectResult.dok) = l.length := by
  induction l with
  | nil => rfl
  | cons a as ih => simpa [countOk, List.countP_cons, isOk] using ih

theorem countErr_map_dok (l : List BlobMetaM) :
    countErr (l.map DetectResult.dok) = 0 := by
  induction l with
  | nil => rfl
  | cons a as ih => simpa [countErr, List.countP_cons, isErr] using ih

theorem countParseErr_map_dok (l : List BlobMetaM) :
    countParseErr (l.map DetectResult.dok) = 0 := by
  induction l with
  | nil => rfl
  | cons a as ih => simpa [countParseErr, List.countP_cons, isParseErr] using ih

theorem okIds_map_dok (l : List BlobMetaM) :
    okIds (l.map DetectResult.dok) = l.map BlobMetaM.id := by
  induction l with
  | nil => rfl
  | cons a as ih => simpa [okIds] using ih

theorem finalEmit_eq_map (m : List (String × BlobMetaM)) :
    finalEmit m = (m.map Prod.snd).map DetectResult.dok := by
  simp [finalEmit]

theorem okIds_finalEmit (m : List (String × BlobMetaM)) :
    okIds (finalEmit m) = (idProj m).map Prod.snd := by
  rw [finalEmit_eq_map, okIds_map_dok]
  simp [idProj]

theorem map_fst_idProj (m : List (String × BlobMetaM)) :
    (idProj m).map Prod.fst = m.map Prod.fst := by
  simp [idProj]

theorem buildPath2Meta_fold (extMime : String → MimeType) (files : List CFile)
    (acc : List (String × BlobMetaM)) (hnd : (files.map CFile.path).Nodup)
    (hfresh : ∀ f ∈ files, ∀ kv ∈ acc, kv.1 ≠ f.path) :
    files.foldl (fun m f => mapSet m f.path (initMeta extMime f)) acc =
      acc ++ files.map (fun f => (f.path, initMeta extMime f)) := by
  induction files generalizing acc with
  | nil => simp
  | cons f fs ih =>
    simp only [List.foldl_cons, List.map_cons]
    have hany : acc.any (fun kv => kv.1 = f.path) = false := by
      rw [List.any_eq_false]
      intro kv hkv
      simpa using hfresh f (List.mem_cons_self f fs) kv hkv
    have hset : mapSet acc f.path (initMeta extMime f) = acc ++ [(f.path, initMeta extMime f)] := by
      unfold mapSet
      rw [hany]
      simp
    have hnd' : (f.path :: fs.map CFile.path).Nodup := by simpa using hnd
    rw [hset, ih (acc ++ [(f.path, initMeta extMime f)]) (List.nodup_cons.mp hnd').2 (by
      intro g hg kv hkv
      rcases List.mem_append.mp hkv with hkv1 | hkv2
      · exact hfresh g (List.mem_cons_of_mem f hg) kv hkv1
      · have hkveq : kv = (f.path, initMeta extMime f) := by simpa using hkv2
        subst hkveq
        intro hcontra
        have hmem : g.path ∈ fs.map CFile.path := List.mem_map_of_mem CFile.path hg
        rw [← hcontra] at hmem
        exact (List.nodup_cons.mp hnd').1 hmem)]
    simp

theorem buildPath2Meta_eq (extMime : String → MimeType) (files : List CFile)
    (hnd : (files.map CFile.path).Nodup) :
    buildPath2Meta extMime files = files.map (fun f => (f.path, initMeta extMime f)) := by
  unfold buildPath2Meta
  rw [buildPath2Meta_fold extMime files [] hnd (by simp)]
  simp

theorem initMeta_id (extMime : String → MimeType) (f : CFile) :
    (initMeta extMime f).id = f.hashStr := rfl

/-! ## C2: behaviour when the classifier invocation fails outright. -/

/-- Counterexample to C2 as stated: a batch of three distinct files
whose two classifier invocations both fail produces only two error
results (one per failing call, not one per item) and still emits all
three items as successes on the result stream. -/
theorem classify_cmd_failure_counterexample :
    countOk (detectModel (fun _ => ⟨"application", "octet-stream", ""⟩) ⟨true, true, none, none⟩
      [⟨"/r/a", "a.txt", "sha1:01"⟩, ⟨"/r/b", "b.gif", "sha1:02"⟩,
        ⟨"/r/c", "c", "sha1:03"⟩]) = 3 ∧
    countErr (detectModel (fun _ => ⟨"application", "octet-stream", ""⟩) ⟨true, true, none, none⟩
      [⟨"/r/a", "a.txt", "sha1:01"⟩, ⟨"/r/b", "b.gif", "sha1:02"⟩,
        ⟨"/r/c", "c", "sha1:03"⟩]) = 2 := by
  decide

/-- C2 (amended): when a classifier invocation fails outright, a single
error result is reported per failing call (two when both the MIME and
the description call fail), and every item of the batch is nevertheless
emitted as a success result carrying only the attributes attached
before classification. -/
theorem classify_cmd_failure (extMime : String → MimeType) (files : List CFile)
    (hnd : (files.map CFile.path).Nodup) :
    detectModel extMime ⟨true, true, none, none⟩ files =
      .derr .cmdErr :: .derr .cmdErr :: files.map (fun f => .dok (initMeta extMime f)) ∧
    countOk (detectModel extMime ⟨true, true, none, none⟩ files) = files.length ∧
    countErr (detectModel extMime ⟨true, true, none, none⟩ files) = 2 := by
  have hb := buildPath2Meta_eq extMime files hnd
  have hmain : detectModel extMime ⟨true, true, none, none⟩ files =
      .derr .cmdErr :: .derr .cmdErr :: files.map (fun f => .dok (initMeta extMime f)) := by
    unfold detectModel mimePass descPass
    simp [hb, finalEmit, List.map_map]
  refine ⟨hmain, ?_, ?_⟩
  · rw [hmain]
    have : files.map (fun f => DetectResult.dok (initMeta extMime f)) =
        (files.map (fun f => initMeta extMime f)).map DetectResult.dok := by
      simp [List.map_map]
    simp only [countOk, List.countP_cons, this]
    rw [show List.countP isOk ((files.map (fun f => initMeta extMime f)).map DetectResult.dok) =
      countOk ((files.map (fun f => initMeta extMime f)).map DetectResult.dok) from rfl]
    rw [countOk_map_dok]
    simp [isOk]
  · rw [hmain]
    have : files.map (fun f => DetectResult.dok (initMeta extMime f)) =
        (files.map (fun f => initMeta extMime f)).map DetectResult.dok := by
      simp [List.map_map]
    simp only [countErr, List.countP_cons, this]
    rw [show List.countP isErr ((files.map (fun f => initMeta extMime f)).map DetectResult.dok) =
      countErr ((files.map (fun f => initMeta extMime f)).map DetectResult.dok) from rfl]
    rw [countErr_map_dok]
    simp [isErr]

/-- Witness for C2 (amended) at a concrete two-file batch. -/
theorem classify_cmd_failure_witness :
    detectModel (fun _ => ⟨"text", "plain", "us-ascii"⟩) ⟨true, true, none, none⟩
        [⟨"/r/a", "a.txt", "sha1:01"⟩, ⟨"/r/b", "b.gif", "sha1:02"⟩] =
      .derr .cmdErr :: .derr .cmdErr ::
        [⟨"/r/a", "a.txt", "sha1:01"⟩, ⟨"/r/b", "b.gif", "sha1:02"⟩].map
          (fun f => .dok (initMeta (fun _ => ⟨"text", "plain", "us-ascii"⟩) f)) :=
  (classify_cmd_failure (fun _ => ⟨"text", "plain", "us-ascii"⟩)
    [⟨"/r/a", "a.txt", "sha1:01"⟩, ⟨"/r/b", "b.gif", "sha1:02"⟩] (by decide)).1

/-! ### Decomposition of a well-formed classifier output line. -/

theorem dropWhile_append_stop {α : Type} (q : α → Bool) (l r : List α) (x : α)
    (hx : q x = false) :
    (l ++ x :: r).dropWhile q = l.dropWhile q ++ x :: r := by
  induction l with
  | nil => simp [List.dropWhile_cons, hx]
  | cons a as ih =>
    simp only [List.cons_append, List.dropWhile_cons]
    by_cases ha : q a = true
    · simp [ha, ih]
    · simp [ha]

theorem line_toList (p v : String) :
    (p ++ ":" ++ v).toList = p.toList ++ ':' :: v.toList := by
  rw [strToList_append, strToList_append, show (":").toList = [':'] from rfl]
  simp

theorem goTrim_line_toList (p v : String) (hp1 : p.toList ≠ [])
    (hpsp : ∀ c ∈ p.toList, isSpaceGo c = false) :
    (goTrim (p ++ ":" ++ v)).toList = p.toList ++ ':' :: (goTrimRight v).toList := by
  obtain ⟨c, cs, hcs⟩ := List.exists_cons_of_ne_nil hp1
  have hcsp : isSpaceGo c = false := hpsp c (by rw [hcs]; exact List.mem_cons_self c cs)
  have hleft : (p ++ ":" ++ v).toList.dropWhile isSpaceGo = (p ++ ":" ++ v).toList := by
    rw [line_toList, hcs]
    simp [List.dropWhile_cons, hcsp]
  have hcolon : isSpaceGo ':' = false := by decide
  show ((((p ++ ":" ++ v).toList.dropWhile isSpaceGo).reverse.dropWhile isSpaceGo).reverse) = _
  rw [hleft, line_toList]
  rw [show (p.toList ++ ':' :: v.toList).reverse = v.toList.reverse ++ ':' :: p.toList.reverse
    from by simp]
  rw [dropWhile_append_stop isSpaceGo v.toList.reverse p.toList.reverse ':' hcolon]
  rw [List.reverse_append]
  simp [goTrimRight]

theorem findIdx_boundary (l r : List Char) (c0 : Char) (hl : ∀ c ∈ l, c ≠ c0) :
    charIdx c0 (l ++ c0 :: r) = some l.length := by
  induction l with
  | nil => simp [charIdx]
  | cons a as ih =>
    have ha : a ≠ c0 := hl a (List.mem_cons_self a as)
    simp only [List.cons_append, charIdx, if_neg ha, List.append_eq]
    rw [ih (fun c hc => hl c (List.mem_cons_of_mem a hc))]
    simp [List.length_cons]

theorem drop_boundary {α : Type} (l r : List α) (x : α) :
    (l ++ x :: r).drop (l.length + 1) = r := by
  induction l with
  | nil => simp
  | cons a as ih => simpa using ih

theorem take_boundary {α : Type} (l r : List α) (x : α) :
    (l ++ x :: r).take l.length = l := by
  induction l with
  | nil => simp
  | cons a as ih => simpa using ih

/-! ### Map lemmas: lookups, overwrite updates, id preservation. -/

theorem mapGet_cons (a : String × BlobMetaM) (m : List (String × BlobMetaM)) (k : String) :
    mapGet (a :: m) k = if a.1 = k then some a.2 else mapGet m k := by
  by_cases h : a.1 = k
  · simp [mapGet, List.find?_cons, h]
  · simp [mapGet, List.find?_cons, h]

theorem mapGet_isSome_of_mem (m : List (String × BlobMetaM)) (k : String)
    (h : k ∈ m.map Prod.fst) : ∃ bm, mapGet m k = some bm := by
  induction m with
  | nil => simp at h
  | cons a as ih =>
    rw [mapGet_cons]
    by_cases hk : a.1 = k
    · exact ⟨a.2, by simp [hk]⟩
    · rw [if_neg hk]
      apply ih
      rcases List.mem_map.mp h with ⟨kv, hkv, hkveq⟩
      rcases List.mem_cons.mp hkv with h1 | h2
      · exact absurd (h1 ▸ hkveq) hk
      · exact List.mem_map.mpr ⟨kv, h2, hkveq⟩

theorem replace_noop (m : List (String × BlobMetaM)) (k : String) (v : BlobMetaM)
    (h : ∀ kv ∈ m, kv.1 ≠ k) :
    m.map (fun kv => if kv.1 = k then (k, v) else kv) = m := by
  induction m with
  | nil => rfl
  | cons a as ih =>
    simp only [List.map_cons]
    rw [if_neg (h a (List.mem_cons_self a as)), ih (fun kv hkv => h kv (List.mem_cons_of_mem a hkv))]

theorem idProj_mapSet (m : List (String × BlobMetaM)) (k : String) (v old : BlobMetaM)
    (hget : mapGet m k = some old) (hid : v.id = old.id)
    (hnd : (m.map Prod.fst).Nodup) : idProj (mapSet m k v) = idProj m := by
  induction m with
  | nil => simp [mapGet] at hget
  | cons a as ih =>
    have hnd0 : (a.1 :: as.map Prod.fst).Nodup := by
      rw [List.map_cons] at hnd
      exact hnd
    have hnd' : a.1 ∉ as.map Prod.fst ∧ (as.map Prod.fst).Nodup := List.nodup_cons.mp hnd0
    rw [mapGet_cons] at hget
    by_cases hk : a.1 = k
    · rw [if_pos hk] at hget
      have hold : old = a.2 := by
        injection hget with hh
        exact hh.symm
      have hany : (a :: as).any (fun kv => kv.1 = k) = true := by
        simp [List.any_cons, hk]
      unfold mapSet
      rw [hany]
      simp only [if_true, List.map_cons, if_pos hk]
      have hnoop : as.map (fun kv => if kv.1 = k then (k, v) else kv) = as := by
        apply replace_noop
        intro kv hkv
        intro hcontra
        apply hnd'.1
        rw [hk]
        rw [← hcontra]
        exact List.mem_map_of_mem Prod.fst hkv
      rw [hnoop]
      unfold idProj
      simp only [List.map_cons]
      rw [hid, hold, ← hk]
    · rw [if_neg hk] at hget
      have hget' := hget
      have hany' : as.any (fun kv => kv.1 = k) = true := by
        obtain ⟨kv0, hkv0, hkv0k⟩ : ∃ kv0 ∈ as, kv0.1 = k := by
          unfold mapGet at hget'
          rcases hfind : as.find? (fun kv => kv.1 = k) with _ | kv0
          · rw [hfind] at hget'
            simp at hget'
          · refine ⟨kv0, List.mem_of_find?_eq_some hfind, ?_⟩
            have := List.find?_some hfind
            simpa using this
        exact List.any_eq_true.mpr ⟨kv0, hkv0, by simpa using hkv0k⟩
      have hih := ih hget' hnd'.2
      unfold mapSet at hih ⊢
      rw [hany'] at hih
      have hany2 : (a :: as).any (fun kv => kv.1 = k) = true := by
        simp only [List.any_cons, hany']
        simp
      rw [hany2]
      simp only [if_true] at hih ⊢
      simp only [List.map_cons, if_neg hk]
      unfold idProj at hih ⊢
      simp only [List.map_cons]
      rw [hih]

/-! ### Canonical forms of the two line-processing steps on a line
`path ++ ":" ++ value` whose path is non-empty, whitespace-free and
colon-free, and whose value carries no trailing whitespace. -/

theorem trim_value_eq (v : String) (hv : goTrimRight v = v) :
    goTrim (String.mk ((goTrimRight v).toList)) = goTrim v := by
  rw [show String.mk ((goTrimRight v).toList) = goTrimRight v from rfl, hv]

theorem mimeLineStep_decomp (m : List (String × BlobMetaM)) (errs : List DetectResult)
    (p v : String) (hp1 : p.toList ≠ [])
    (hpsp : ∀ c ∈ p.toList, isSpaceGo c = false)
    (hpc : ∀ c ∈ p.toList, c ≠ ':') (hv : goTrimRight v = v) :
    mimeLineStep (m, errs) (p ++ ":" ++ v) =
      match mapGet m p with
      | none => (m, errs ++ [.derr .matchErr])
      | some bm =>
        match parseMimeString (goTrim v) with
        | none => (m, errs ++ [.derr .parseErr])
        | some mt =>
          (mapSet m p (((bm.Add "filetype-mime-type" (.str mt.typ)).Add
              "filetype-mime-subtype" (.str mt.subtyp)).Add
            "filetype-mime-encoding" (.str mt.encoding)), errs) := by
  have htl := goTrim_line_toList p v hp1 hpsp
  have hltrim : goTrim (p ++ ":" ++ v) =
      String.mk (p.toList ++ ':' :: (goTrimRight v).toList) := by
    conv_lhs => rw [show goTrim (p ++ ":" ++ v) =
      String.mk ((goTrim (p ++ ":" ++ v)).toList) from rfl]
    rw [htl]
  have hne : String.mk (p.toList ++ ':' :: (goTrimRight v).toList) ≠ "" := by
    intro hcontra
    have := congrArg String.toList hcontra
    simp at this
  have hidx : strIndexChar (String.mk (p.toList ++ ':' :: (goTrimRight v).toList)) ':' =
      some p.toList.length := by
    unfold strIndexChar
    rw [show (String.mk (p.toList ++ ':' :: (goTrimRight v).toList)).toList =
      p.toList ++ ':' :: (goTrimRight v).toList from rfl]
    exact findIdx_boundary p.toList (goTrimRight v).toList ':' hpc
  unfold mimeLineStep
  simp only [hltrim, if_neg hne, hidx]
  rw [show (String.mk (p.toList ++ ':' :: (goTrimRight v).toList)).toList =
    p.toList ++ ':' :: (goTrimRight v).toList from rfl]
  rw [take_boundary, drop_boundary]
  rw [show String.mk p.toList = p from rfl]
  rw [trim_value_eq v hv]

theorem descLineStep_decomp (m : List (String × BlobMetaM)) (errs : List DetectResult)
    (p v : String) (hp1 : p.toList ≠ [])
    (hpsp : ∀ c ∈ p.toList, isSpaceGo c = false)
    (hpc : ∀ c ∈ p.toList, c ≠ ':') (hv : goTrimRight v = v) :
    descLineStep (m, errs) (p ++ ":" ++ v) =
      match mapGet m p with
      | none => (m, errs ++ [.derr .matchErr])
      | some bm =>
        if goTrim v = "" then (m, errs)
        else (mapSet m p (bm.Add "filetype-description" (.str (goTrim v))), errs) := by
  have htl := goTrim_line_toList p v hp1 hpsp
  have hltrim : goTrim (p ++ ":" ++ v) =
      String.mk (p.toList ++ ':' :: (goTrimRight v).toList) := by
    conv_lhs => rw [show goTrim (p ++ ":" ++ v) =
      String.mk ((goTrim (p ++ ":" ++ v)).toList) from rfl]
    rw [htl]
  have hne : String.mk (p.toList ++ ':' :: (goTrimRight v).toList) ≠ "" := by
    intro hcontra
    have := congrArg String.toList hcontra
    simp at this
  have hidx : strIndexChar (String.mk (p.toList ++ ':' :: (goTrimRight v).toList)) ':' =
      some p.toList.length := by
    unfold strIndexChar
    rw [show (String.mk (p.toList ++ ':' :: (goTrimRight v).toList)).toList =
      p.toList ++ ':' :: (goTrimRight v).toList from rfl]
    exact findIdx_boundary p.toList (goTrimRight v).toList ':' hpc
  unfold descLineStep
  simp only [hltrim, if_neg hne, hidx]
  rw [show (String.mk (p.toList ++ ':' :: (goTrimRight v).toList)).toList =
    p.toList ++ ':' :: (goTrimRight v).toList from rfl]
  rw [take_boundary, drop_boundary]
  rw [show String.mk p.toList = p from rfl]
  rw [trim_value_eq v hv]

/-- A path as the batcher writes it into the listing file and the
classifier echoes it back: non-empty, without whitespace and without a
colon. -/
def pathFeat (p : String) : Prop :=
  p.toList ≠ [] ∧ ∀ c ∈ p.toList, isSpaceGo c = false ∧ c ≠ ':'

theorem mimeLineStep_good (m : List (String × BlobMetaM)) (errs : List DetectResult)
    (p v : String) (hp : pathFeat p) (hmem : p ∈ m.map Prod.fst)
    (hnd : (m.map Prod.fst).Nodup) (hv : goTrimRight v = v)
    (hparse : (parseMimeString (goTrim v)).isSome = true) :
    ∃ m2, mimeLineStep (m, errs) (p ++ ":" ++ v) = (m2, errs) ∧ idProj m2 = idProj m := by
  obtain ⟨bm, hbm⟩ := mapGet_isSome_of_mem m p hmem
  obtain ⟨mt, hmt⟩ := Option.isSome_iff_exists.mp hparse
  rw [mimeLineStep_decomp m errs p v hp.1 (fun c hc => (hp.2 c hc).1)
    (fun c hc => (hp.2 c hc).2) hv]
  simp only [hbm, hmt]
  exact ⟨_, rfl, idProj_mapSet m p _ bm hbm rfl hnd⟩

theorem mimeLineStep_bad (m : List (String × BlobMetaM)) (errs : List DetectResult)
    (p v : String) (hp : pathFeat p) (hmem : p ∈ m.map Prod.fst)
    (hv : goTrimRight v = v)
    (hparse : parseMimeString (goTrim v) = none) :
    mimeLineStep (m, errs) (p ++ ":" ++ v) = (m, errs ++ [.derr .parseErr]) := by
  obtain ⟨bm, hbm⟩ := mapGet_isSome_of_mem m p hmem
  rw [mimeLineStep_decomp m errs p v hp.1 (fun c hc => (hp.2 c hc).1)
    (fun c hc => (hp.2 c hc).2) hv]
  simp only [hbm, hparse]

theorem descLineStep_good (m : List (String × BlobMetaM)) (errs : List DetectResult)
    (p v : String) (hp : pathFeat p) (hmem : p ∈ m.map Prod.fst)
    (hnd : (m.map Prod.fst).Nodup) (hv : goTrimRight v = v) :
    ∃ m2, descLineStep (m, errs) (p ++ ":" ++ v) = (m2, errs) ∧ idProj m2 = idProj m := by
  obtain ⟨bm, hbm⟩ := mapGet_isSome_of_mem m p hmem
  rw [descLineStep_decomp m errs p v hp.1 (fun c hc => (hp.2 c hc).1)
    (fun c hc => (hp.2 c hc).2) hv]
  simp only [hbm]
  by_cases hdesc : goTrim v = ""
  · rw [if_pos hdesc]
    exact ⟨m, rfl, rfl⟩
  · rw [if_neg hdesc]
    exact ⟨_, rfl, idProj_mapSet m p _ bm hbm rfl hnd⟩

/-- Per-file well-formedness of the MIME response line. -/
def mimeGood (mval : CFile → String) (f : CFile) : Prop :=
  pathFeat f.path ∧ goTrimRight (mval f) = mval f ∧
    (parseMimeString (goTrim (mval f))).isSome = true

/-- Per-file well-formedness of the description response line. -/
def descGood (dval : CFile → String) (f : CFile) : Prop :=
  pathFeat f.path ∧ goTrimRight (dval f) = dval f

instance (p : String) : Decidable (pathFeat p) := by
  unfold pathFeat
  infer_instance

instance (mval : CFile → String) (f : CFile) : Decidable (mimeGood mval f) := by
  unfold mimeGood
  infer_instance

instance (dval : CFile → String) (f : CFile) : Decidable (descGood dval f) := by
  unfold descGood
  infer_instance

theorem mime_fold_noerr (fs : List CFile) (mval : CFile → String)
    (m : List (String × BlobMetaM)) (errs : List DetectResult)
    (hfeat : ∀ f ∈ fs, mimeGood mval f)
    (hkeys : ∀ f ∈ fs, f.path ∈ m.map Prod.fst)
    (hnd : (m.map Prod.fst).Nodup) :
    ∃ m2, (fs.map (fun f => f.path ++ ":" ++ mval f)).foldl mimeLineStep (m, errs) = (m2, errs) ∧
      idProj m2 = idProj m := by
  induction fs generalizing m with
  | nil => exact ⟨m, rfl, rfl⟩
  | cons f fs' ih =>
    obtain ⟨hp, hv, hparse⟩ := hfeat f (List.mem_cons_self f fs')
    obtain ⟨m1, hstep, hproj⟩ := mimeLineStep_good m errs f.path (mval f) hp
      (hkeys f (List.mem_cons_self f fs')) hnd hv hparse
    have hkeys1 : m1.map Prod.fst = m.map Prod.fst := by
      have h := congrArg (List.map Prod.fst) hproj
      rw [map_fst_idProj, map_fst_idProj] at h
      exact h
    obtain ⟨m2, hfold, hproj2⟩ := ih m1
      (fun g hg => hfeat g (List.mem_cons_of_mem f hg))
      (fun g hg => hkeys1 ▸ hkeys g (List.mem_cons_of_mem f hg))
      (hkeys1 ▸ hnd)
    refine ⟨m2, ?_, hproj2.trans hproj⟩
    simp only [List.map_cons, List.foldl_cons, hstep, hfold]

theorem desc_fold_noerr (fs : List CFile) (dval : CFile → String)
    (m : List (String × BlobMetaM)) (errs : List DetectResult)
    (hfeat : ∀ f ∈ fs, descGood dval f)
    (hkeys : ∀ f ∈ fs, f.path ∈ m.map Prod.fst)
    (hnd : (m.map Prod.fst).Nodup) :
    ∃ m2, (fs.map (fun f => f.path ++ ":" ++ dval f)).foldl descLineStep (m, errs) = (m2, errs) ∧
      idProj m2 = idProj m := by
  induction fs generalizing m with
  | nil => exact ⟨m, rfl, rfl⟩
  | cons f fs' ih =>
    obtain ⟨hp, hv⟩ := hfeat f (List.mem_cons_self f fs')
    obtain ⟨m1, hstep, hproj⟩ := descLineStep_good m errs f.path (dval f) hp
      (hkeys f (List.mem_cons_self f fs')) hnd hv
    have hkeys1 : m1.map Prod.fst = m.map Prod.fst := by
      have h := congrArg (List.map Prod.fst) hproj
      rw [map_fst_idProj, map_fst_idProj] at h
      exact h
    obtain ⟨m2, hfold, hproj2⟩ := ih m1
      (fun g hg => hfeat g (List.mem_cons_of_mem f hg))
      (fun g hg => hkeys1 ▸ hkeys g (List.mem_cons_of_mem f hg))
      (hkeys1 ▸ hnd)
    refine ⟨m2, ?_, hproj2.trans hproj⟩
    simp only [List.map_cons, List.foldl_cons, hstep, hfold]

theorem mime_fold_onebad (pre post : List CFile) (f0 : CFile) (mval : CFile → String)
    (m : List (String × BlobMetaM)) (errs : List DetectResult)
    (hfeatpre : ∀ f ∈ pre, mimeGood mval f)
    (hfeatpost : ∀ f ∈ post, mimeGood mval f)
    (hp0 : pathFeat f0.path) (hv0 : goTrimRight (mval f0) = mval f0)
    (hbad : parseMimeString (goTrim (mval f0)) = none)
    (hkeys : ∀ f ∈ pre ++ f0 :: post, f.path ∈ m.map Prod.fst)
    (hnd : (m.map Prod.fst).Nodup) :
    ∃ m2, ((pre ++ f0 :: post).map (fun f => f.path ++ ":" ++ mval f)).foldl
        mimeLineStep (m, errs) = (m2, errs ++ [.derr .parseErr]) ∧
      idProj m2 = idProj m := by
  obtain ⟨mA, hfoldA, hprojA⟩ := mime_fold_noerr pre mval m errs hfeatpre
    (fun f hf => hkeys f (List.mem_append_left _ hf)) hnd
  have hkeysA : mA.map Prod.fst = m.map Prod.fst := by
    have h := congrArg (List.map Prod.fst) hprojA
    rw [map_fst_idProj, map_fst_idProj] at h
    exact h
  have hmem0 : f0.path ∈ mA.map Prod.fst := by
    rw [hkeysA]
    exact hkeys f0 (List.mem_append_right _ (List.mem_cons_self f0 post))
  have hstep0 := mimeLineStep_bad mA errs f0.path (mval f0) hp0 hmem0 hv0 hbad
  obtain ⟨m2, hfoldB, hprojB⟩ := mime_fold_noerr post mval mA (errs ++ [.derr .parseErr])
    hfeatpost
    (fun f hf => by
      rw [hkeysA]
      exact hkeys f (List.mem_append_right _ (List.mem_cons_of_mem f0 hf)))
    (hkeysA ▸ hnd)
  refine ⟨m2, ?_, (hprojB.trans hprojA)⟩
  rw [List.map_append, List.foldl_append, hfoldA]
  simp only [List.map_cons, List.foldl_cons, hstep0, hfoldB]

/-! ## C3: batch reassociation counts. -/

theorem idProj_buildPath2Meta (extMime : String → MimeType) (files : List CFile)
    (hnd : (files.map CFile.path).Nodup) :
    idProj (buildPath2Meta extMime files) = files.map (fun f => (f.path, f.hashStr)) := by
  rw [buildPath2Meta_eq extMime files hnd]
  simp [idProj, List.map_map, initMeta_id]

theorem keys_buildPath2Meta (extMime : String → MimeType) (files : List CFile)
    (hnd : (files.map CFile.path).Nodup) :
    (buildPath2Meta extMime files).map Prod.fst = files.map CFile.path := by
  rw [buildPath2Meta_eq extMime files hnd]
  simp

/-- C3 (amended): for a batch of N distinct well-formed paths whose
classifier responses cover all N paths with well-formed lines, the
batcher emits exactly N results, zero errors of any kind, and each
result is attached to its originating path's blob: the multiset of ids
carried by the emitted results equals the multiset of the batch's
content-hash strings (emission order is unspecified, as Go's map
iteration is); for a response in which exactly one line's value is
corrupted, exactly one parse error is reported and all N items are
nevertheless still emitted as successes (N+1 results in total). -/
theorem classify_reassociation (extMime : String → MimeType)
    (files : List CFile) (mval dval : CFile → String) (mo dso : String)
    (pre post : List CFile) (f0 : CFile) (mval2 dval2 : CFile → String) (mo2 dso2 : String)
    (hnd : (files.map CFile.path).Nodup)
    (hmo : splitLines mo = files.map (fun f => f.path ++ ":" ++ mval f))
    (hdo : splitLines dso = files.map (fun f => f.path ++ ":" ++ dval f))
    (hgoodm : ∀ f ∈ files, mimeGood mval f)
    (hgoodd : ∀ f ∈ files, descGood dval f)
    (hnd2 : ((pre ++ f0 :: post).map CFile.path).Nodup)
    (hmo2 : splitLines mo2 = (pre ++ f0 :: post).map (fun f => f.path ++ ":" ++ mval2 f))
    (hdo2 : splitLines dso2 = (pre ++ f0 :: post).map (fun f => f.path ++ ":" ++ dval2 f))
    (hgoodm2pre : ∀ f ∈ pre, mimeGood mval2 f)
    (hgoodm2post : ∀ f ∈ post, mimeGood mval2 f)
    (hp0 : pathFeat f0.path) (hv0 : goTrimRight (mval2 f0) = mval2 f0)
    (hbad : parseMimeString (goTrim (mval2 f0)) = none)
    (hgoodd2 : ∀ f ∈ pre ++ f0 :: post, descGood dval2 f) :
    (detectModel extMime ⟨true, true, some mo, some dso⟩ files).length = files.length ∧
    countErr (detectModel extMime ⟨true, true, some mo, some dso⟩ files) = 0 ∧
    countOk (detectModel extMime ⟨true, true, some mo, some dso⟩ files) = files.length ∧
    (okIds (detectModel extMime ⟨true, true, some mo, some dso⟩ files)).Perm
      (files.map CFile.hashStr) ∧
    countParseErr (detectModel extMime ⟨true, true, some mo2, some dso2⟩
      (pre ++ f0 :: post)) = 1 ∧
    countErr (detectModel extMime ⟨true, true, some mo2, some dso2⟩
      (pre ++ f0 :: post)) = 1 ∧
    countOk (detectModel extMime ⟨true, true, some mo2, some dso2⟩
      (pre ++ f0 :: post)) = (pre ++ f0 :: post).length ∧
    (okIds (detectModel extMime ⟨true, true, some mo2, some dso2⟩
      (pre ++ f0 :: post))).Perm ((pre ++ f0 :: post).map CFile.hashStr) := by
  -- scenario 1
  have hkeys0 := keys_buildPath2Meta extMime files hnd
  have hproj0 := idProj_buildPath2Meta extMime files hnd
  have hndk : ((buildPath2Meta extMime files).map Prod.fst).Nodup := by
    rw [hkeys0]
    exact hnd
  obtain ⟨m1, hfold1, hproj1⟩ := mime_fold_noerr files mval (buildPath2Meta extMime files) []
    hgoodm (fun f hf => by rw [hkeys0]; exact List.mem_map_of_mem _ hf) hndk
  have hkeys1 : m1.map Prod.fst = (buildPath2Meta extMime files).map Prod.fst := by
    have h := congrArg (List.map Prod.fst) hproj1
    rw [map_fst_idProj, map_fst_idProj] at h
    exact h
  obtain ⟨m2, hfold2, hproj2⟩ := desc_fold_noerr files dval m1 [] hgoodd
    (fun f hf => by rw [hkeys1, hkeys0]; exact List.mem_map_of_mem _ hf)
    (by rw [hkeys1]; exact hndk)
  have hR : detectModel extMime ⟨true, true, some mo, some dso⟩ files = finalEmit m2 := by
    unfold detectModel mimePass descPass
    simp only [hmo, hdo, hfold1]
    simp only [hfold2]
    simp
  have hproj02 : idProj m2 = files.map (fun f => (f.path, f.hashStr)) :=
    (hproj2.trans hproj1).trans hproj0
  have hlen2 : m2.length = files.length := by
    have h := congrArg List.length hproj02
    simpa [idProj] using h
  -- scenario 2
  have hkeys0b := keys_buildPath2Meta extMime (pre ++ f0 :: post) hnd2
  have hproj0b := idProj_buildPath2Meta extMime (pre ++ f0 :: post) hnd2
  have hndkb : ((buildPath2Meta extMime (pre ++ f0 :: post)).map Prod.fst).Nodup := by
    rw [hkeys0b]
    exact hnd2
  obtain ⟨n1, hfold1b, hproj1b⟩ := mime_fold_onebad pre post f0 mval2
    (buildPath2Meta extMime (pre ++ f0 :: post)) [] hgoodm2pre hgoodm2post hp0 hv0 hbad
    (fun f hf => by rw [hkeys0b]; exact List.mem_map_of_mem _ hf) hndkb
  have hkeys1b : n1.map Prod.fst = (buildPath2Meta extMime (pre ++ f0 :: post)).map Prod.fst := by
    have h := congrArg (List.map Prod.fst) hproj1b
    rw [map_fst_idProj, map_fst_idProj] at h
    exact h
  obtain ⟨n2, hfold2b, hproj2b⟩ := desc_fold_noerr (pre ++ f0 :: post) dval2 n1
    [] hgoodd2
    (fun f hf => by rw [hkeys1b, hkeys0b]; exact List.mem_map_of_mem _ hf)
    (by rw [hkeys1b]; exact hndkb)
  have hRb : detectModel extMime ⟨true, true, some mo2, some dso2⟩ (pre ++ f0 :: post) =
      .derr .parseErr :: finalEmit n2 := by
    unfold detectModel mimePass descPass
    simp only [hmo2, hdo2, hfold1b]
    simp only [hfold2b]
    simp
  have hproj02b : idProj n2 = (pre ++ f0 :: post).map (fun f => (f.path, f.hashStr)) :=
    (hproj2b.trans hproj1b).trans hproj0b
  have hlen2b : n2.length = (pre ++ f0 :: post).length := by
    have h := congrArg List.length hproj02b
    simpa [idProj] using h
  refine ⟨?_, ?_, ?_, ?_, ?_, ?_, ?_, ?_⟩
  · rw [hR, finalEmit_eq_map]
    simp [hlen2]
  · rw [hR, finalEmit_eq_map, countErr_map_dok]
  · rw [hR, finalEmit_eq_map, countOk_map_dok]
    simp [hlen2]
  · have heq : okIds (detectModel extMime ⟨true, true, some mo, some dso⟩ files) =
        files.map CFile.hashStr := by
      rw [hR, okIds_finalEmit, hproj02]
      simp [List.map_map, Function.comp]
    rw [heq]
  · rw [hRb]
    rw [show countParseErr (DetectResult.derr DErrKind.parseErr :: finalEmit n2) =
      countParseErr (finalEmit n2) + 1 from by
        simp [countParseErr, List.countP_cons, isParseErr]]
    rw [finalEmit_eq_map, countParseErr_map_dok]
  · rw [hRb]
    rw [show countErr (DetectResult.derr DErrKind.parseErr :: finalEmit n2) =
      countErr (finalEmit n2) + 1 from by simp [countErr, List.countP_cons, isErr]]
    rw [finalEmit_eq_map, countErr_map_dok]
  · rw [hRb]
    rw [show countOk (DetectResult.derr DErrKind.parseErr :: finalEmit n2) =
      countOk (finalEmit n2) from by simp [countOk, List.countP_cons, isOk]]
    rw [finalEmit_eq_map, countOk_map_dok]
    simp [hlen2b]
  · have heq : okIds (detectModel extMime ⟨true, true, some mo2, some dso2⟩
        (pre ++ f0 :: post)) = (pre ++ f0 :: post).map CFile.hashStr := by
      rw [hRb]
      rw [show okIds (DetectResult.derr DErrKind.parseErr :: finalEmit n2) =
        okIds (finalEmit n2) from by simp [okIds]]
      rw [okIds_finalEmit, hproj02b]
      have hcomp : (Prod.snd ∘ fun f : CFile => (f.path, f.hashStr)) = CFile.hashStr := by
        funext f
        rfl
      simp [List.map_map, hcomp]
    rw [heq]

/-- The concrete classifier fixtures used below. -/
def exMW : String → MimeType := fun _ => ⟨"application", "octet-stream", ""⟩

/-- Concrete batch file 1. -/
def fAW : CFile := ⟨"/r/a", "a.txt", "sha1:01"⟩

/-- Concrete batch file 2. -/
def fBW : CFile := ⟨"/r/b", "b.gif", "sha1:02"⟩

/-- Concrete MIME values per path. -/
def mvalW : CFile → String := fun f =>
  if f.path = "/r/a" then "text/plain; charset=us-ascii" else "image/gif; charset=binary"

/-- Concrete description values per path. -/
def dvalW : CFile → String := fun f =>
  if f.path = "/r/a" then "ASCII text" else "GIF image"

/-- MIME values with the second path's value corrupted. -/
def mval2W : CFile → String := fun f =>
  if f.path = "/r/a" then "text/plain; charset=us-ascii" else "garbage"

/-- A full well-formed MIME response. -/
def moW : String := "/r/a:text/plain; charset=us-ascii\n/r/b:image/gif; charset=binary"

/-- A full well-formed description response. -/
def dsoW : String := "/r/a:ASCII text\n/r/b:GIF image"

/-- A MIME response whose second line's value is corrupted. -/
def mo2W : String := "/r/a:text/plain; charset=us-ascii\n/r/b:garbage"

/-- Counterexample to C3 as stated: for a batch of N = 2 distinct paths
and a response with exactly one corrupted line, exactly one parse error
is reported, but the number of emitted successes is 2, not N-1 = 1: the
corrupted item is still emitted as a success. -/
theorem classify_parse_error_counterexample :
    countParseErr (detectModel exMW ⟨true, true, some mo2W, some dsoW⟩ [fAW, fBW]) = 1 ∧
    countOk (detectModel exMW ⟨true, true, some mo2W, some dsoW⟩ [fAW, fBW]) = 2 ∧
    countOk (detectModel exMW ⟨true, true, some mo2W, some dsoW⟩ [fAW, fBW]) ≠
      [fAW, fBW].length - 1 := by
  decide

/-- Witness for C3 (amended) at the concrete two-file batch. -/
theorem classify_reassociation_witness :
    countOk (detectModel exMW ⟨true, true, some moW, some dsoW⟩ [fAW, fBW]) = 2 ∧
    (okIds (detectModel exMW ⟨true, true, some moW, some dsoW⟩ [fAW, fBW])).Perm
      ["sha1:01", "sha1:02"] ∧
    countParseErr (detectModel exMW ⟨true, true, some mo2W, some dsoW⟩
      ([fAW] ++ fBW :: [])) = 1 ∧
    countOk (detectModel exMW ⟨true, true, some mo2W, some dsoW⟩ ([fAW] ++ fBW :: [])) = 2 := by
  have h := classify_reassociation exMW [fAW, fBW] mvalW dvalW moW dsoW
    [fAW] [] fBW mval2W dvalW mo2W dsoW
    (by decide) (by decide) (by decide) (by decide) (by decide) (by decide) (by decide)
    (by decide) (by decide) (by decide) (by decide) (by decide) (by decide) (by decide)
  exact ⟨h.2.2.1, by simpa using h.2.2.2.1, h.2.2.2.2.1, by simpa using h.2.2.2.2.2.2.1⟩

/-! ## C6: the completion protocol of `ProcessStatus`.

`ProcessStatus` (blob package) holds atomic counters, a blob channel, a
done channel and a done flag; `Finish` stores the finish time, sets the
flag and closes both channels.  The drivers `load` and `store` spawn
their workers, wait on the `sync.WaitGroup` join barrier, and only then
call `Finish` once.  A run is therefore modelled as a trace
`il ++ [finish]` where `il` is an arbitrary interleaving of the
complete worker event lists; the theorem below holds for every such
interleaving. -/

/-- The observable `ProcessStatus` state. -/
structure PStatus where
  count : Int
  size : Int
  skipCount : Int
  skipSize : Int
  errorCount : Int
  done : Bool
  blobChanClosed : Bool
  doneChanClosed : Bool
  deriving Repr, DecidableEq

/-- The zero state built by `NewProcessStatus`. -/
def PStatus.init : PStatus := ⟨0, 0, 0, 0, 0, false, false, false⟩

/-- Effect of one event on the status: the `Add*` operations are the
atomic adds; `Finish` sets the flag and closes both channels; a channel
send leaves the status itself unchanged. -/
def applyEvent (st : PStatus) (e : Event) : PStatus :=
  match e with
  | .addCount n => { st with count := st.count + n }
  | .addSize n => { st with size := st.size + n }
  | .addSkipCount n => { st with skipCount := st.skipCount + n }
  | .addSkipSize n => { st with skipSize := st.skipSize + n }
  | .addErrorCount n => { st with errorCount := st.errorCount + n }
  | .emitBlob _ => st
  | .finish => { st with done := true, blobChanClosed := true, doneChanClosed := true }

/-- Run a trace of events against a status. -/
def runEvents (st : PStatus) (es : List Event) : PStatus := es.foldl applyEvent st

/-- The counter part of the status. -/
def countersOf (st : PStatus) : Int × Int × Int × Int × Int :=
  (st.count, st.size, st.skipCount, st.skipSize, st.errorCount)

/-- Is this event the `Finish` call? -/
def Event.isFinish : Event → Bool
  | .finish => true
  | _ => false

/-- A trace that never invokes `Finish`. -/
def finishFree (es : List Event) : Prop := ∀ e ∈ es, e.isFinish = false

instance (es : List Event) : Decidable (finishFree es) := by
  unfold finishFree
  infer_instance

/-- Interleaving of two traces (each trace's internal order
preserved). -/
inductive Merge2 : List Event → List Event → List Event → Prop where
  | nil : Merge2 [] [] []
  | left (x : Event) (xs ys zs : List Event) : Merge2 xs ys zs → Merge2 (x :: xs) ys (x :: zs)
  | right (y : Event) (xs ys zs : List Event) : Merge2 xs ys zs → Merge2 xs (y :: ys) (y :: zs)

/-- Interleaving of a pool of worker traces. -/
def MergeN : List (List Event) → List Event → Prop
  | [], out => out = []
  | l :: ls, out => ∃ rest, MergeN ls rest ∧ Merge2 l rest out

theorem merge2_mem (xs ys zs : List Event) (h : Merge2 xs ys zs) :
    ∀ e ∈ zs, e ∈ xs ∨ e ∈ ys := by
  induction h with
  | nil => intro e he; simp at he
  | left x xs ys zs hm ih =>
    intro e he
    rcases List.mem_cons.mp he with rfl | he2
    · exact Or.inl (List.mem_cons_self _ _)
    · rcases ih e he2 with h1 | h2
      · exact Or.inl (List.mem_cons_of_mem _ h1)
      · exact Or.inr h2
  | right y xs ys zs hm ih =>
    intro e he
    rcases List.mem_cons.mp he with rfl | he2
    · exact Or.inr (List.mem_cons_self _ _)
    · rcases ih e he2 with h1 | h2
      · exact Or.inl h1
      · exact Or.inr (List.mem_cons_of_mem _ h2)

theorem mergeN_mem (ls : List (List Event)) (out : List Event) (h : MergeN ls out) :
    ∀ e ∈ out, ∃ l ∈ ls, e ∈ l := by
  induction ls generalizing out with
  | nil =>
    intro e he
    unfold MergeN at h
    subst h
    simp at he
  | cons l ls' ih =>
    obtain ⟨rest, hrest, hm2⟩ := h
    intro e he
    rcases merge2_mem l rest out hm2 e he with h1 | h2
    · exact ⟨l, List.mem_cons_self _ _, h1⟩
    · obtain ⟨l2, hl2, hel2⟩ := ih rest hrest e h2
      exact ⟨l2, List.mem_cons_of_mem _ hl2, hel2⟩

theorem merge2_nil_left (ys : List Event) : Merge2 [] ys ys := by
  induction ys with
  | nil => exact .nil
  | cons y ys ih => exact .right y [] ys ys ih

theorem merge2_append (xs ys : List Event) : Merge2 xs ys (xs ++ ys) := by
  induction xs with
  | nil => simpa using merge2_nil_left ys
  | cons x xs ih => exact .left x xs ys (xs ++ ys) ih

/-- The full event trace of one `save` worker over its share of the
input queue. -/
def saveWorkerEvents (env : SaveEnv) (root : String) (bs : List FileBlobM) : List Event :=
  bs.flatMap (fun b => (saveStep env root b).events)

/-- The full event trace of one `loadFile` worker over its share of the
path queue. -/
def loadWorkerEvents (sha1 : List Nat → List Nat) (env : LoadEnv) (ps : List String) :
    List Event :=
  ps.flatMap (fun p => (loadFileStep sha1 env p).events)

theorem saveStep_finishFree (env : SaveEnv) (root : String) (b : FileBlobM) :
    finishFree (saveStep env root b).events := by
  intro e he
  rcases hbe : blobExists env (blobTargetPath root b.hash) b.size with _ | ex
  · simp [saveStep, hbe] at he
    subst he
    rfl
  · cases ex
    · rcases hmk : env.mkdirOk (dirName (blobTargetPath root b.hash)) with _ | _
      · simp [saveStep, hbe, hmk] at he
        subst he
        rfl
      · rcases hblob : b.blob with _ | content
        · simp [saveStep, hbe, hmk, hblob] at he
          subst he
          rfl
        · rcases hw : env.writeOk (blobTargetPath root b.hash) with _ | _
          · simp [saveStep, hbe, hmk, hblob, hw] at he
            subst he
            rfl
          · simp [saveStep, hbe, hmk, hblob, hw] at he
            rcases he with rfl | rfl | rfl <;> rfl
    · simp [saveStep, hbe] at he
      rcases he with rfl | rfl <;> rfl

theorem loadFileStep_finishFree (sha1 : List Nat → List Nat) (env : LoadEnv) (p : String) :
    finishFree (loadFileStep sha1 env p).events := by
  intro e he
  unfold loadFileStep at he
  split at he
  all_goals simp at he
  all_goals (first
    | (subst he; rfl)
    | (rcases he with rfl | rfl <;> rfl)
    | (rcases he with rfl | rfl | rfl <;> rfl))

theorem saveWorker_finishFree (env : SaveEnv) (root : String) (bs : List FileBlobM) :
    finishFree (saveWorkerEvents env root bs) := by
  intro e he
  unfold saveWorkerEvents at he
  rcases List.mem_flatMap.mp he with ⟨b, _, heb⟩
  exact saveStep_finishFree env root b e heb

theorem loadWorker_finishFree (sha1 : List Nat → List Nat) (env : LoadEnv) (ps : List String) :
    finishFree (loadWorkerEvents sha1 env ps) := by
  intro e he
  unfold loadWorkerEvents at he
  rcases List.mem_flatMap.mp he with ⟨p, _, hep⟩
  exact loadFileStep_finishFree sha1 env p e hep

theorem applyEvent_done (st : PStatus) (e : Event) (h : e.isFinish = false) :
    ((applyEvent st e).done = st.done) ∧ ((applyEvent st e).blobChanClosed = st.blobChanClosed) ∧
      ((applyEvent st e).doneChanClosed = st.doneChanClosed) := by
  cases e <;> first | exact ⟨rfl, rfl, rfl⟩ | exact absurd h (by simp [Event.isFinish])

theorem runEvents_flags (st : PStatus) (es : List Event) (h : finishFree es) :
    ((runEvents st es).done = st.done) ∧ ((runEvents st es).blobChanClosed = st.blobChanClosed) ∧
      ((runEvents st es).doneChanClosed = st.doneChanClosed) := by
  induction es generalizing st with
  | nil => exact ⟨rfl, rfl, rfl⟩
  | cons e es' ih =>
    have he : e.isFinish = false := h e (List.mem_cons_self e es')
    have hrest : finishFree es' := fun x hx => h x (List.mem_cons_of_mem e hx)
    obtain ⟨h1, h2, h3⟩ := ih (applyEvent st e) hrest
    obtain ⟨g1, g2, g3⟩ := applyEvent_done st e he
    exact ⟨h1.trans g1, h2.trans g2, h3.trans g3⟩

theorem countersOf_applyEvent_finish (st : PStatus) :
    countersOf (applyEvent st .finish) = countersOf st := rfl

/-- C6: in the drivers' completion protocol a run's trace is an
arbitrary interleaving `il` of the finish-free worker traces followed
by the single `Finish` call after the join barrier.  Along every such
trace: `Finish` occurs exactly once; the done flag and the two
closes become true exactly when the whole trace (including `Finish`)
has run, so the false→true transition happens exactly once, at the
barrier; the counters after any point at or past the barrier equal the
counters at the barrier (they never change after the transition); and
the traces of the store and loader workers are indeed finish-free. -/
theorem process_status_completion (traces : List (List Event)) (il : List Event)
    (hff : ∀ tr ∈ traces, finishFree tr) (hmerge : MergeN traces il) :
    ((il ++ [Event.finish]).countP Event.isFinish = 1) ∧
    (∀ i, (runEvents PStatus.init ((il ++ [Event.finish]).take i)).done = true ↔
      il.length + 1 ≤ i) ∧
    (∀ i, (runEvents PStatus.init ((il ++ [Event.finish]).take i)).blobChanClosed = true ↔
      il.length + 1 ≤ i) ∧
    (∀ i, (runEvents PStatus.init ((il ++ [Event.finish]).take i)).doneChanClosed = true ↔
      il.length + 1 ≤ i) ∧
    (∀ i, il.length ≤ i →
      countersOf (runEvents PStatus.init ((il ++ [Event.finish]).take i)) =
        countersOf (runEvents PStatus.init il)) ∧
    (∀ env root bs, finishFree (saveWorkerEvents env root bs)) ∧
    (∀ sha1 env ps, finishFree (loadWorkerEvents sha1 env ps)) := by
  have hilff : finishFree il := by
    intro e he
    obtain ⟨tr, htr, hetr⟩ := mergeN_mem traces il hmerge e he
    exact hff tr htr e hetr
  have hrunfull : runEvents PStatus.init (il ++ [Event.finish]) =
      applyEvent (runEvents PStatus.init il) Event.finish := by
    unfold runEvents
    rw [List.foldl_append]
    rfl
  refine ⟨?_, ?_, ?_, ?_, ?_, saveWorker_finishFree, loadWorker_finishFree⟩
  · rw [List.countP_append]
    rw [List.countP_eq_zero.mpr (by
      intro e he
      simp [hilff e he])]
    rfl
  · intro i
    constructor
    · intro hdone
      by_contra hlt
      have hle : i ≤ il.length := by omega
      rw [List.take_append_of_le_length hle] at hdone
      have hffp : finishFree (il.take i) := fun e he => hilff e (List.take_subset i il he)
      rw [(runEvents_flags PStatus.init (il.take i) hffp).1] at hdone
      simp [PStatus.init] at hdone
    · intro hge
      have hlen : (il ++ [Event.finish]).length ≤ i := by
        simp
        omega
      rw [List.take_of_length_le hlen, hrunfull]
      rfl
  · intro i
    constructor
    · intro hdone
      by_contra hlt
      have hle : i ≤ il.length := by omega
      rw [List.take_append_of_le_length hle] at hdone
      have hffp : finishFree (il.take i) := fun e he => hilff e (List.take_subset i il he)
      rw [(runEvents_flags PStatus.init (il.take i) hffp).2.1] at hdone
      simp [PStatus.init] at hdone
    · intro hge
      have hlen : (il ++ [Event.finish]).length ≤ i := by
        simp
        omega
      rw [List.take_of_length_le hlen, hrunfull]
      rfl
  · intro i
    constructor
    · intro hdone
      by_contra hlt
      have hle : i ≤ il.length := by omega
      rw [List.take_append_of_le_length hle] at hdone
      have hffp : finishFree (il.take i) := fun e he => hilff e (List.take_subset i il he)
      rw [(runEvents_flags PStatus.init (il.take i) hffp).2.2] at hdone
      simp [PStatus.init] at hdone
    · intro hge
      have hlen : (il ++ [Event.finish]).length ≤ i := by
        simp
        omega
      rw [List.take_of_length_le hlen, hrunfull]
      rfl
  · intro i hge
    by_cases hcase : il.length + 1 ≤ i
    · have hlen : (il ++ [Event.finish]).length ≤ i := by
        simp
        omega
      rw [List.take_of_length_le hlen, hrunfull, countersOf_applyEvent_finish]
    · have hi : i = il.length := by omega
      subst hi
      rw [List.take_append_of_le_length (le_refl _), List.take_length]

/-- Witness for C6 at a concrete two-worker interleaving. -/
theorem process_status_completion_witness :
    (([Event.addCount 1, Event.addErrorCount 1] ++ [Event.finish]).countP Event.isFinish = 1) ∧
    ((runEvents PStatus.init (([Event.addCount 1, Event.addErrorCount 1] ++
        [Event.finish]).take 2)).done = true ↔ 2 + 1 ≤ 2) := by
  have hm2 : Merge2 [Event.addCount 1] [Event.addErrorCount 1]
      [Event.addCount 1, Event.addErrorCount 1] := merge2_append _ _
  have hmn : MergeN [[Event.addCount 1], [Event.addErrorCount 1]]
      [Event.addCount 1, Event.addErrorCount 1] :=
    ⟨[Event.addErrorCount 1], ⟨[], rfl, merge2_append [Event.addErrorCount 1] []⟩, hm2⟩
  have h := process_status_completion [[Event.addCount 1], [Event.addErrorCount 1]]
    [Event.addCount 1, Event.addErrorCount 1] (by decide) hmn
  exact ⟨h.1, h.2.1 2⟩

end Filemanager
